import Mathlib

set_option maxHeartbeats 1000000

/-!
Verification of the cycle-detection core of the Patlytics hotfix repository
(`src/patlytics-demo/src/hooks/useCycleDetection.js` and the skip-and-continue
variant of the same hook).  The JavaScript functions `runDetection`,
`runDetectionWithSteps` (two policy variants) and `removeCycles` are embedded
shallowly: JavaScript `Set`s become duplicate-free lists kept in insertion
order, arrays become lists, objects with optional fields become structures
with `Option` fields, and the recursive `dfs` closures become fuel-indexed
recursive functions (the fuel is a modelling artefact; we prove that the
fuel chosen by the entry points is always sufficient).
-/

namespace Patlytics

/-- A directed edge as produced by the hook's result objects
(objects with `source` and `target` fields in the source). -/

structure GEdge where
  source : String
  target : String
  deriving Repr, DecidableEq

/-- Adjacency-list graph: a mapping from node id to the ordered list of
successor ids, represented as an association list in key order
(the JavaScript object supplied by the caller). -/

abbrev Graph := List (String × List String)

/-- Object property lookup `g[k]` (own keys only). -/

def lookupG (g : Graph) (k : String) : Option (List String) :=
  (g.find? (fun kv => kv.1 = k)).map (fun kv => kv.2)

/-- The source's `graphData[currentNode] || []`. -/

def lookupD (g : Graph) (k : String) : List String :=
  (lookupG g k).getD []

/-- `b` is a successor of `a` in the graph. -/

def edgeG (g : Graph) (a b : String) : Prop := b ∈ lookupD g a

instance (g : Graph) (a b : String) : Decidable (edgeG g a b) := by
  unfold edgeG; infer_instance

/-- Reachability along graph edges (reflexive-transitive closure). -/

def reach (g : Graph) : String → String → Prop :=
  Relation.ReflTransGen (edgeG g)

/-- Some cycle is reachable from `s`: a node `n` reachable from `s` that
lies on a nontrivial closed walk. -/

def cycReach (g : Graph) (s : String) : Prop :=
  ∃ n m, reach g s n ∧ edgeG g n m ∧ reach g m n

/-- JavaScript `Set.add`: append if absent (insertion order preserved). -/

def addS (l : List String) (x : String) : List String :=
  if x ∈ l then l else l ++ [x]

/-- Traversal state of `runDetection`: the caller's graph together with the
`visited` set, the `recursionStack` set and the `pathStack` array.  The two
sets are modelled as insertion-ordered duplicate-free lists. -/

structure DetSt where
  graphData : Graph
  visited : List String
  recursionStack : List String
  pathStack : List String
  deriving Repr, DecidableEq

/-- Return value of the inner `dfs` of `runDetection`:
either no cycle, or a cycle with its culprit node. -/

inductive DRes where
  | notFound
  | foundAt (culprit : String)
  deriving Repr, DecidableEq

/-- The `found` field of a `dfs` return object. -/

def DRes.found : DRes → Bool
  | .notFound => false
  | .foundAt _ => true

/-- The neighbor loop of `runDetection`'s `dfs` (step 4 of the source):
explore neighbors in listed order and propagate the first cycle found. -/

def dfsDN (rec : String → DetSt → Option (DRes × DetSt)) :
    List String → DetSt → Option (DRes × DetSt)
  | [], st => some (.notFound, st)
  | n :: rest, st =>
    match rec n st with
    | none => none
    | some (r, st1) => if r.found then some (r, st1) else dfsDN rec rest st1

/-- Steps 3-5 of `runDetection`'s `dfs` for a fresh node: push it on the
recursion stack and path stack, run the neighbor loop, and on a quiet
return backtrack and mark the node safe. -/

def dfsDStep (rec : String → DetSt → Option (DRes × DetSt))
    (cur : String) (st : DetSt) : Option (DRes × DetSt) :=
  let st1 : DetSt :=
    { st with recursionStack := addS st.recursionStack cur,
              pathStack := st.pathStack ++ [cur] }
  match dfsDN rec (lookupD st1.graphData cur) st1 with
  | none => none
  | some (r, st2) =>
    if r.found then some (r, st2)
    else
      some (.notFound,
        { st2 with recursionStack := st2.recursionStack.erase cur,
                   pathStack := st2.pathStack.dropLast,
                   visited := addS st2.visited cur })

/-- The inner `dfs` of `runDetection`, fuel-indexed.  Checks the
recursion stack, then the visited set, then pushes the node, explores its
neighbors and backtracks, exactly as the source. -/

def dfsD : Nat → String → DetSt → Option (DRes × DetSt)
  | fuel, cur, st =>
    if cur ∈ st.recursionStack then some (.foundAt cur, st)
    else if cur ∈ st.visited then some (.notFound, st)
    else
      match fuel with
      | 0 => none
      | f + 1 => dfsDStep (dfsD f) cur st

/-- Every node id mentioned by the graph or used as start node. -/

def allNodesList (g : Graph) (s : String) : List String :=
  s :: g.foldr (fun kv acc => kv.1 :: (kv.2 ++ acc)) []

/-- Fuel that is provably sufficient for every traversal. -/

def fuelOf (g : Graph) (s : String) : Nat := (allNodesList g s).length

/-- Fresh traversal state for a detection run on `g`. -/

def detInit (g : Graph) : DetSt :=
  { graphData := g, visited := [], recursionStack := [], pathStack := [] }

/-- The `dfs(startNode)` call of `runDetection` (performed only after the
start-node validation succeeded). -/

def detectRun (g : Graph) (s : String) : Option (DRes × DetSt) :=
  dfsD (fuelOf g s) s (detInit g)

/-- Cycle-path extraction of the source: slice `pathStack` from the first
occurrence of the culprit and close the loop by appending the culprit. -/

def mkLoopPath (path : List String) (c : String) : List String :=
  (path.drop (path.indexOf c)) ++ [c]

/-- A step record emitted by `captureState` of the instrumented detectors:
the action tag, the node, both explanation strings, copies of the three
traversal collections, and the action-specific extra fields (absent ones
are `none`). -/

structure StepRec where
  action : String
  node : String
  explanation : String
  explanationZh : String
  visited : List String
  recursionStack : List String
  pathStack : List String
  targetNeighbor : Option String := none
  isCycle : Option Bool := none
  cycleNode : Option String := none
  skippedEdge : Option GEdge := none
  deriving Repr, DecidableEq

/-- A result object returned by any of the three operations; fields that a
given return statement does not set are `none` (absent in JavaScript). -/

structure JSResult where
  found : Bool
  path : Option (List String) := none
  loopPath : Option (List String) := none
  cycleEdge : Option GEdge := none
  error : Option String := none
  handled : Option Bool := none
  skippedEdges : Option (List GEdge) := none
  steps : Option (List StepRec) := none
  deriving Repr, DecidableEq

/-- `runDetection(graphData, startNode)` of the source: validate the start
node, run `dfs`, and extract the loop path on success. -/

def runDetection (g : Graph) (s : String) : JSResult :=
  if (lookupG g s).isSome then
    match detectRun g s with
    | none => { found := false }
    | some (r, st') =>
      match r with
      | .foundAt c =>
        { found := true
          path := some st'.pathStack
          loopPath := some (mkLoopPath st'.pathStack c) }
      | .notFound => { found := false }
  else
    { found := false, error := some ("Node \"" ++ s ++ "\" not found in graph") }

/-- Traversal state of the stop-at-first-cycle `runDetectionWithSteps`:
the detector state plus the `stepsLog` array. -/

structure SSt where
  graphData : Graph
  visited : List String
  recursionStack : List String
  pathStack : List String
  stepsLog : List StepRec
  deriving Repr, DecidableEq

/-- `captureState` of the instrumented detectors: append one immutable
record holding copies of the live collections and any extra fields. -/

def captureS (action node expl explZh : String) (tn : Option String)
    (ic : Option Bool) (cn : Option String) (st : SSt) : SSt :=
  { st with stepsLog := st.stepsLog ++
      [{ action := action, node := node, explanation := expl,
         explanationZh := explZh, visited := st.visited,
         recursionStack := st.recursionStack, pathStack := st.pathStack,
         targetNeighbor := tn, isCycle := ic, cycleNode := cn }] }

/-- `captureState` with no extra fields. -/

def captureS0 (action node expl explZh : String) (st : SSt) : SSt :=
  captureS action node expl explZh none none none st

/-- Return value of the stop-at-first-cycle instrumented `dfs`: on a cycle
it also carries the identified back-edge. -/

inductive SRes where
  | notFound
  | foundAt (culprit : String) (cycleEdge : GEdge)
  deriving Repr, DecidableEq

/-- The `found` field of an instrumented `dfs` return object. -/

def SRes.found : SRes → Bool
  | .notFound => false
  | .foundAt _ _ => true

/-- Neighbor loop of the stop-at-first-cycle instrumented `dfs`: emit
`EXPLORE_NEIGHBOR`, recurse, and propagate the first cycle found. -/

def dfsSN (rec : String → SSt → Option (SRes × SSt)) (cur : String) :
    List String → SSt → Option (SRes × SSt)
  | [], st => some (.notFound, st)
  | n :: rest, st =>
    let st := captureS "EXPLORE_NEIGHBOR" cur
      ("> traverse edge[" ++ cur ++ "]->[" ++ n ++ "]")
      ("遍歷邊 " ++ cur ++ " -> " ++ n) (some n) none none st
    match rec n st with
    | none => none
    | some (r, st1) => if r.found then some (r, st1) else dfsSN rec cur rest st1

/-- The fresh-node part of the stop-at-first-cycle instrumented `dfs`:
push, emit `ADD_TO_STACK`, run the neighbor loop, and on a quiet return
emit `BACKTRACK`, backtrack, and emit `MARK_SAFE`. -/

def dfsSStep (rec : String → SSt → Option (SRes × SSt))
    (cur : String) (st : SSt) : Option (SRes × SSt) :=
  let st1 : SSt :=
    { st with recursionStack := addS st.recursionStack cur,
              pathStack := st.pathStack ++ [cur] }
  let st1 := captureS0 "ADD_TO_STACK" cur
    ("> stack.push(" ++ cur ++ ") => ["
      ++ String.intercalate "," st1.recursionStack ++ "]")
    ("將 " ++ cur ++ " 加入堆疊") st1
  match dfsSN rec cur (lookupD st1.graphData cur) st1 with
  | none => none
  | some (r, st2) =>
    if r.found then some (r, st2)
    else
      let st2 := captureS0 "BACKTRACK" cur
        ("> stack.pop() -- backtrack from node[" ++ cur ++ "]")
        ("回溯，從堆疊移除 " ++ cur) st2
      let st3 : SSt :=
        { st2 with recursionStack := st2.recursionStack.erase cur,
                   pathStack := st2.pathStack.dropLast,
                   visited := addS st2.visited cur }
      let st3 := captureS0 "MARK_SAFE" cur
        ("> visited.add(" ++ cur ++ ") -- node verified safe")
        ("節點 " ++ cur ++ " 標記為安全") st3
      some (.notFound, st3)

/-- The stop-at-first-cycle instrumented `dfs` (hook file
`useCycleDetection.js`), fuel-indexed; control flow is identical to
`dfsD`, with one `captureState` at each decision point. -/

def dfsS : Nat → String → SSt → Option (SRes × SSt)
  | fuel, cur, st =>
    let st := captureS0 "ENTER_NODE" cur ("> push node[" ++ cur ++ "]")
      ("進入節點 " ++ cur) st
    let st := captureS0 "CHECK_IN_STACK" cur
      ("> check stack.contains(" ++ cur ++ ") => ["
        ++ String.intercalate "," st.recursionStack ++ "]")
      ("檢查堆疊是否包含 " ++ cur) st
    if cur ∈ st.recursionStack then
      let st := captureS "CYCLE_FOUND" cur
        ("[!] FATAL: cycle detected @ node[" ++ cur ++ "] | path: "
          ++ String.intercalate "->" st.pathStack ++ "->" ++ cur)
        ("致命錯誤：在節點 " ++ cur ++ " 發現循環")
        none (some true) (some cur) st
      let source := (st.pathStack.getLast?).getD ""
      some (.foundAt cur ⟨source, cur⟩, st)
    else
      let st := captureS0 "CHECK_VISITED" cur
        ("> check visited.has(" ++ cur ++ ") => \x7b"
          ++ String.intercalate "," st.visited ++ "\x7d")
        ("檢查是否已訪問 " ++ cur) st
      if cur ∈ st.visited then
        let st := captureS0 "SKIP_VISITED" cur
          ("> skip node[" ++ cur ++ "] -- already verified")
          ("跳過節點 " ++ cur ++ "，已驗證安全") st
        some (.notFound, st)
      else
        match fuel with
        | 0 => none
        | f + 1 => dfsSStep (dfsS f) cur st

/-- Fresh state for a stop-at-first-cycle instrumented run, after the
unconditional `START` record has been emitted. -/

def sInit (g : Graph) (s : String) : SSt :=
  captureS0 "START" s ("> init dfs --start=\"" ++ s ++ "\"")
    ("初始化深度優先搜尋，起點=\"" ++ s ++ "\"")
    { graphData := g, visited := [], recursionStack := [],
      pathStack := [], stepsLog := [] }

/-- The `dfs(startNode)` call of the stop-at-first-cycle
`runDetectionWithSteps`. -/

def detectRunS (g : Graph) (s : String) : Option (SRes × SSt) :=
  dfsS (fuelOf g s) s (sInit g s)

/-- `runDetectionWithSteps(graphData, startNode)` of
`useCycleDetection.js` (stop-at-first-cycle policy). -/

def runDetectionWithSteps (g : Graph) (s : String) : JSResult :=
  if (lookupG g s).isSome then
    match detectRunS g s with
    | none => { found := false }
    | some (r, st') =>
      match r with
      | .foundAt c ce =>
        { found := true
          path := some st'.pathStack
          loopPath := some (mkLoopPath st'.pathStack c)
          cycleEdge := some ce
          steps := some st'.stepsLog }
      | .notFound =>
        let st'' := captureS0 "COMPLETE" s
          ("> exit 0 -- no cycles detected, all paths verified")
          ("檢測完成，無循環，所有路徑安全") st'
        { found := false, steps := some st''.stepsLog }
  else
    { found := false
      error := some ("Node \"" ++ s ++ "\" not found in graph")
      steps := some (sInit g s).stepsLog }

/-- Traversal state of the skip-and-continue `runDetectionWithSteps`
(`src/unnamed/part_000`): detector state, `stepsLog`, and the accumulated
`skippedEdges`. -/

structure KSt where
  graphData : Graph
  visited : List String
  recursionStack : List String
  pathStack : List String
  stepsLog : List StepRec
  skippedEdges : List GEdge
  deriving Repr, DecidableEq

/-- `captureState` of the skip-and-continue variant. -/

def captureK (action node expl explZh : String) (tn : Option String)
    (ic : Option Bool) (cn : Option String) (se : Option GEdge)
    (st : KSt) : KSt :=
  { st with stepsLog := st.stepsLog ++
      [{ action := action, node := node, explanation := expl,
         explanationZh := explZh, visited := st.visited,
         recursionStack := st.recursionStack, pathStack := st.pathStack,
         targetNeighbor := tn, isCycle := ic, cycleNode := cn,
         skippedEdge := se }] }

/-- `captureState` of the skip-and-continue variant, no extra fields. -/

def captureK0 (action node expl explZh : String) (st : KSt) : KSt :=
  captureK action node expl explZh none none none none st

/-- Return value of the skip-and-continue `dfs`: a detected back-edge is
reported as found-and-skipped rather than propagated. -/

inductive KRes where
  | notFound
  | foundSkipped (cycleEdge : GEdge)
  deriving Repr, DecidableEq

/-- Neighbor loop of the skip-and-continue `dfs`: emit
`EXPLORE_NEIGHBOR`, recurse, and continue with the next neighbor
regardless of the recursive result. -/

def dfsKN (rec : String → KSt → Option (KRes × KSt)) (cur : String) :
    List String → KSt → Option (KRes × KSt)
  | [], st => some (.notFound, st)
  | n :: rest, st =>
    let st := captureK "EXPLORE_NEIGHBOR" cur
      ("> traverse edge[" ++ cur ++ "]->[" ++ n ++ "]")
      ("遍歷邊 " ++ cur ++ " -> " ++ n) (some n) none none none st
    match rec n st with
    | none => none
    | some (_, st1) => dfsKN rec cur rest st1

/-- The fresh-node part of the skip-and-continue `dfs`: push, emit
`ADD_TO_STACK`, run the result-ignoring neighbor loop, then emit
`BACKTRACK`, backtrack, and emit `MARK_SAFE`. -/

def dfsKStep (rec : String → KSt → Option (KRes × KSt))
    (cur : String) (st : KSt) : Option (KRes × KSt) :=
  let st1 : KSt :=
    { st with recursionStack := addS st.recursionStack cur,
              pathStack := st.pathStack ++ [cur] }
  let st1 := captureK0 "ADD_TO_STACK" cur
    ("> stack.push(" ++ cur ++ ") => ["
      ++ String.intercalate "," st1.recursionStack ++ "]")
    ("將 " ++ cur ++ " 加入堆疊") st1
  match dfsKN rec cur (lookupD st1.graphData cur) st1 with
  | none => none
  | some (_, st2) =>
    let st2 := captureK0 "BACKTRACK" cur
      ("> stack.pop() -- backtrack from node[" ++ cur ++ "]")
      ("回溯，從堆疊移除 " ++ cur) st2
    let st3 : KSt :=
      { st2 with recursionStack := st2.recursionStack.erase cur,
                 pathStack := st2.pathStack.dropLast,
                 visited := addS st2.visited cur }
    let st3 := captureK0 "MARK_SAFE" cur
      ("> visited.add(" ++ cur ++ ") -- node verified safe")
      ("節點 " ++ cur ++ " 標記為安全") st3
    some (.notFound, st3)

/-- The skip-and-continue instrumented `dfs`, fuel-indexed.  On a
back-edge it records the edge in `skippedEdges`, emits `CYCLE_FOUND`
followed by `SKIP_CYCLE`, and returns without aborting the caller's
loop. -/

def dfsK : Nat → String → KSt → Option (KRes × KSt)
  | fuel, cur, st =>
    let st := captureK0 "ENTER_NODE" cur ("> push node[" ++ cur ++ "]")
      ("進入節點 " ++ cur) st
    let st := captureK0 "CHECK_IN_STACK" cur
      ("> check stack.contains(" ++ cur ++ ") => ["
        ++ String.intercalate "," st.recursionStack ++ "]")
      ("檢查堆疊是否包含 " ++ cur) st
    if cur ∈ st.recursionStack then
      let st := captureK "CYCLE_FOUND" cur
        ("[!] CYCLE DETECTED @ node[" ++ cur ++ "] | path: "
          ++ String.intercalate "->" st.pathStack ++ "->" ++ cur)
        ("偵測到循環：節點 " ++ cur)
        none (some true) (some cur) none st
      let source := (st.pathStack.getLast?).getD ""
      let backEdge : GEdge := ⟨source, cur⟩
      let st := { st with skippedEdges := st.skippedEdges ++ [backEdge] }
      let st := captureK "SKIP_CYCLE" cur
        ("[✓] SKIP edge[" ++ source ++ "]->[" ++ cur
          ++ "] -- avoiding infinite loop")
        ("跳過邊 " ++ source ++ "->" ++ cur ++ "，避免無限迴圈")
        none none none (some backEdge) st
      some (.foundSkipped backEdge, st)
    else
      let st := captureK0 "CHECK_VISITED" cur
        ("> check visited.has(" ++ cur ++ ") => \x7b"
          ++ String.intercalate "," st.visited ++ "\x7d")
        ("檢查是否已訪問 " ++ cur) st
      if cur ∈ st.visited then
        let st := captureK0 "SKIP_VISITED" cur
          ("> skip node[" ++ cur ++ "] -- already verified")
          ("跳過節點 " ++ cur ++ "，已驗證安全") st
        some (.notFound, st)
      else
        match fuel with
        | 0 => none
        | f + 1 => dfsKStep (dfsK f) cur st

/-- Fresh state for a skip-and-continue run, after the unconditional
`START` record has been emitted. -/

def kInit (g : Graph) (s : String) : KSt :=
  captureK0 "START" s ("> init dfs --start=\"" ++ s ++ "\"")
    ("初始化深度優先搜尋，起點=\"" ++ s ++ "\"")
    { graphData := g, visited := [], recursionStack := [],
      pathStack := [], stepsLog := [], skippedEdges := [] }

/-- The `dfs(startNode)` call of the skip-and-continue
`runDetectionWithSteps`. -/

def detectRunK (g : Graph) (s : String) : Option (KRes × KSt) :=
  dfsK (fuelOf g s) s (kInit g s)

/-- `runDetectionWithSteps(graphData, startNode)` of `src/unnamed/part_000`
(skip-and-continue policy): after the traversal, branch on whether any
back-edges were skipped. -/

def runDetectionWithStepsSkip (g : Graph) (s : String) : JSResult :=
  if (lookupG g s).isSome then
    match detectRunK g s with
    | none => { found := false }
    | some (_, st') =>
      if 0 < st'.skippedEdges.length then
        let st'' := captureK0 "COMPLETE" s
          ("[✓] COMPLETE: traversal finished. "
            ++ toString st'.skippedEdges.length
            ++ " cycle(s) detected and skipped.")
          ("完成：遍歷結束。偵測到 " ++ toString st'.skippedEdges.length
            ++ " 個循環並成功跳過。") st'
        { found := true
          handled := some true
          skippedEdges := some st''.skippedEdges
          steps := some st''.stepsLog }
      else
        let st'' := captureK0 "COMPLETE" s
          ("> exit 0 -- no cycles detected, all paths verified")
          ("檢測完成，無循環，所有路徑安全") st'
        { found := false, steps := some st''.stepsLog }
  else
    { found := false
      error := some ("Node \"" ++ s ++ "\" not found in graph")
      steps := some (kInit g s).stepsLog }

/-- Mutable traversal state of `removeCycles`: the caller-owned input graph
(never written), the private copy `safeGraph` that edge deletions are
performed on, the accumulated `removedEdges`, and the DFS bookkeeping. -/

structure ESt where
  caller : Graph
  safe : Graph
  removedEdges : List GEdge
  visited : List String
  recursionStack : List String
  pathStack : List String
  deriving Repr, DecidableEq

/-- Assignment to an existing key of the object (`safeGraph[k] = v` as
performed by `splice` on the stored array): key order is preserved. -/

def setVal (g : Graph) (k : String) (v : List String) : Graph :=
  g.map (fun kv => if kv.1 = k then (kv.1, v) else kv)

/-- The backwards `for` loop of `removeCycles`'s `dfs`: the first argument
of the recursion is `i + 1` where `i` is the index examined next, so the
loop runs while `i >= 0`.  A back-edge is spliced out of the live array and
recorded; a visited neighbor is skipped; otherwise the walk recurses. -/

def elimLoop (rec : String → ESt → Option ESt) (cur : String) :
    Nat → ESt → Option ESt
  | 0, st => some st
  | j + 1, st =>
    let nbrs := lookupD st.safe cur
    match nbrs.get? j with
    | none => some st
    | some n =>
      if n ∈ st.recursionStack then
        elimLoop rec cur j
          { st with safe := setVal st.safe cur (nbrs.eraseIdx j),
                    removedEdges := st.removedEdges ++ [⟨cur, n⟩] }
      else if n ∈ st.visited then
        elimLoop rec cur j st
      else
        match rec n st with
        | none => none
        | some st1 => elimLoop rec cur j st1

/-- One frame of `removeCycles`'s `dfs`: push the node, run the backwards
neighbor loop starting at the last index of the live successor array, then
backtrack. -/

def elimStep (rec : String → ESt → Option ESt) (cur : String)
    (st : ESt) : Option ESt :=
  let st1 : ESt :=
    { st with recursionStack := addS st.recursionStack cur,
              pathStack := st.pathStack ++ [cur] }
  match elimLoop rec cur (lookupD st1.safe cur).length st1 with
  | none => none
  | some st2 =>
    some { st2 with recursionStack := st2.recursionStack.erase cur,
                    pathStack := st2.pathStack.dropLast,
                    visited := addS st2.visited cur }

/-- The inner `dfs` of `removeCycles`, fuel-indexed. -/

def elimDfs : Nat → String → ESt → Option ESt
  | fuel, cur, st =>
    match fuel with
    | 0 => none
    | f + 1 => elimStep (elimDfs f) cur st

/-- Fresh state for an elimination run: `safeGraph` is the private deep
copy of the caller's graph (`JSON.parse(JSON.stringify(graphData))`),
which in the embedding is a structurally equal value. -/

def elimInit (g : Graph) : ESt :=
  { caller := g, safe := g, removedEdges := [], visited := [],
    recursionStack := [], pathStack := [] }

/-- The guarded `dfs(startNode)` call of `removeCycles` (the guard
`if (safeGraph[startNode])` tests key presence, arrays being truthy). -/

def elimRun (g : Graph) (s : String) : Option ESt :=
  if (lookupG g s).isSome then elimDfs (fuelOf g s) s (elimInit g)
  else some (elimInit g)

/-- The object returned by `removeCycles`. -/

structure ElimResult where
  safeGraph : Graph
  removedEdges : List GEdge
  deriving Repr, DecidableEq

/-- `removeCycles(graphData, startNode)` of the source. -/

def removeCycles (g : Graph) (s : String) : ElimResult :=
  match elimRun g s with
  | none => { safeGraph := g, removedEdges := [] }
  | some st => { safeGraph := st.safe, removedEdges := st.removedEdges }

/-! ### Generic lemmas about the set and graph primitives -/

/-- The state invariant of a detection run: the recursion stack and path
stack hold the same nodes, visited nodes are never on the stack, the
visited set is closed under graph successors, and no visited node lies on
a cycle. -/

structure DetInv (st : DetSt) : Prop where
  stackPath : ∀ x, x ∈ st.recursionStack ↔ x ∈ st.pathStack
  disj : ∀ x ∈ st.visited, x ∉ st.recursionStack
  clov : ∀ v ∈ st.visited, ∀ w, edgeG st.graphData v w → w ∈ st.visited
  noloop : ∀ v ∈ st.visited, ∀ m, edgeG st.graphData v m →
    ¬ reach st.graphData m v

/-- Postcondition of one `dfs` call of `runDetection`. -/

def DConc (cur : String) (st : DetSt) (r : DRes) (st' : DetSt) : Prop :=
  DetInv st' ∧ st'.graphData = st.graphData ∧ st.visited <+: st'.visited ∧
  (r = .notFound → st'.recursionStack = st.recursionStack ∧
    st'.pathStack = st.pathStack ∧ cur ∈ st'.visited) ∧
  (∀ c, r = .foundAt c → c ∈ st'.recursionStack)

/-- Postcondition of the neighbor loop of `runDetection`. -/

def DNConc (ns : List String) (st : DetSt) (r : DRes) (st' : DetSt) : Prop :=
  DetInv st' ∧ st'.graphData = st.graphData ∧ st.visited <+: st'.visited ∧
  (r = .notFound → st'.recursionStack = st.recursionStack ∧
    st'.pathStack = st.pathStack ∧ ∀ n ∈ ns, n ∈ st'.visited) ∧
  (∀ c, r = .foundAt c → c ∈ st'.recursionStack)

/-- A recursive call obeying the `dfs` postcondition. -/

def DSpec (rec : String → DetSt → Option (DRes × DetSt)) : Prop :=
  ∀ cur st r st', DetInv st → rec cur st = some (r, st') → DConc cur st r st'

/-- All known node ids as a finite set. -/

def nodeFinset (g : Graph) (s : String) : Finset String :=
  (allNodesList g s).toFinset

/-- Soundness data carried by a cycle report: the culprit lies on the path
stack, the path stack is an edge-chain whose last node has an edge to the
culprit, and the culprit is reachable from the start node. -/

def SoundConc (g : Graph) (s : String) (r : DRes) (st' : DetSt) : Prop :=
  ∀ c, r = .foundAt c →
    c ∈ st'.pathStack ∧ List.Chain' (edgeG g) st'.pathStack ∧
    (∃ p, st'.pathStack.getLast? = some p ∧ edgeG g p c) ∧ reach g s c

def GW1 : Graph := [("1", ["2", "7"]), ("2", ["3", "4"]), ("3", ["2", "1"])]

/-- All keys of the graph, in order. -/

def keysOf (g : Graph) : List String := g.map Prod.fst

/-- State invariant of an elimination run, over the live `safeGraph`. -/

structure EInv (st : ESt) : Prop where
  stackPath : ∀ x, x ∈ st.recursionStack ↔ x ∈ st.pathStack
  disj : ∀ x ∈ st.visited, x ∉ st.recursionStack
  clov : ∀ v ∈ st.visited, ∀ w, edgeG st.safe v w → w ∈ st.visited
  noloop : ∀ v ∈ st.visited, ∀ m, edgeG st.safe v m → ¬ reach st.safe m v

/-- Postcondition of one fresh-node `dfs` frame of `removeCycles`:
bookkeeping is restored, the node ends up visited, and the removed-edge
delta describes exactly the edge deletions performed on the safe graph. -/

def EConc (cur : String) (st st' : ESt) : Prop :=
  EInv st' ∧ st'.caller = st.caller ∧
  st'.recursionStack = st.recursionStack ∧
  st'.pathStack = st.pathStack ∧
  st.visited <+: st'.visited ∧ cur ∈ st'.visited ∧
  keysOf st'.safe = keysOf st.safe ∧
  ∃ Δ, st'.removedEdges = st.removedEdges ++ Δ ∧
    (∀ e ∈ Δ, e.source ∉ st.visited ∧ e.source ∉ st.recursionStack ∧
      e.source ∈ st'.visited ∧ edgeG st.safe e.source e.target) ∧
    (∀ k, lookupD st'.safe k =
      (lookupD st.safe k).filter (fun n => decide (GEdge.mk k n ∉ Δ)))

/-- A recursive call obeying the frame postcondition of `removeCycles`. -/

def ESpec (rec : String → ESt → Option ESt) : Prop :=
  ∀ cur st st', EInv st → cur ∉ st.recursionStack → cur ∉ st.visited →
    rec cur st = some st' → EConc cur st st'

/-- Postcondition of the backwards neighbor loop of `removeCycles` run over
the first `i` positions of the live successor list of `cur`. -/

def ELConc (cur : String) (i : Nat) (st st' : ESt) : Prop :=
  EInv st' ∧ st'.caller = st.caller ∧
  st'.recursionStack = st.recursionStack ∧
  st'.pathStack = st.pathStack ∧
  st.visited <+: st'.visited ∧
  keysOf st'.safe = keysOf st.safe ∧
  lookupD st'.safe cur =
    ((lookupD st.safe cur).take i).filter
      (fun n => decide (n ∉ st.recursionStack)) ++ (lookupD st.safe cur).drop i ∧
  (∀ m ∈ ((lookupD st.safe cur).take i).filter
      (fun n => decide (n ∉ st.recursionStack)), m ∈ st'.visited) ∧
  ∃ D, st'.removedEdges = st.removedEdges ++ D ∧
    (∀ n, GEdge.mk cur n ∈ D ↔
      n ∈ (lookupD st.safe cur).take i ∧ n ∈ st.recursionStack) ∧
    (∀ e ∈ D, edgeG st.safe e.source e.target ∧
      (e.source = cur ∨ (e.source ∉ st.visited ∧ e.source ∉ st.recursionStack ∧
        e.source ∈ st'.visited))) ∧
    (∀ k, k ≠ cur → lookupD st'.safe k =
      (lookupD st.safe k).filter (fun n => decide (GEdge.mk k n ∉ D)))

/-- The `START` record emitted before validation. -/

def startRec (s : String) : StepRec :=
  { action := "START", node := s,
    explanation := "> init dfs --start=\"" ++ s ++ "\"",
    explanationZh := "初始化深度優先搜尋，起點=\"" ++ s ++ "\"",
    visited := [], recursionStack := [], pathStack := [] }

/-- Forget the step log of an instrumented traversal state. -/

def SSt.toDet (st : SSt) : DetSt :=
  { graphData := st.graphData, visited := st.visited,
    recursionStack := st.recursionStack, pathStack := st.pathStack }

/-- Forget the back-edge of an instrumented cycle report. -/

def SRes.toD : SRes → DRes
  | .notFound => .notFound
  | .foundAt c _ => .foundAt c

/-- Forget the instrumentation of a `dfs` return value. -/

def projS (p : SRes × SSt) : DRes × DetSt := (p.1.toD, p.2.toDet)

def GSelf : Graph := [("1", ["1"])]

/-- Postcondition of one skip-and-continue `dfs` call: the traversal
always returns with the stacks restored, the visited set only grown, and
the new step records' `skippedEdge` fields spelling out exactly the new
entries of `skippedEdges`. -/

def KConc (st st' : KSt) : Prop :=
  st'.graphData = st.graphData ∧
  st'.recursionStack = st.recursionStack ∧
  st'.pathStack = st.pathStack ∧
  st.visited <+: st'.visited ∧
  ∃ L, st'.stepsLog = st.stepsLog ++ L ∧
    st'.skippedEdges = st.skippedEdges ++
      L.filterMap (fun q => q.skippedEdge)

/-- A recursive call obeying the skip-and-continue postcondition. -/

def KSpec (rec : String → KSt → Option (KRes × KSt)) : Prop :=
  ∀ cur st r st', rec cur st = some (r, st') → KConc st st'

/-- The log-and-skips part of the skip-and-continue postcondition. -/

def LConc (st st' : KSt) : Prop :=
  ∃ L, st'.stepsLog = st.stepsLog ++ L ∧
    st'.skippedEdges = st.skippedEdges ++ L.filterMap (fun q => q.skippedEdge)

/-- Internal consistency of one step record's snapshots: the recursion
stack and the path stack hold the same node set, and no node is both
visited and on the recursion stack. -/

def GoodRec (q : StepRec) : Prop :=
  (∀ x, x ∈ q.recursionStack ↔ x ∈ q.pathStack) ∧
  (∀ x ∈ q.visited, x ∉ q.recursionStack)

/-- Trace invariant of an emitted step list: every record is internally
consistent and the visited snapshots grow monotonically along the
trace. -/

def GoodTrace (L : List StepRec) : Prop :=
  (∀ q ∈ L, GoodRec q) ∧
  L.Pairwise (fun p q => ∀ x ∈ p.visited, x ∈ q.visited)

/-- The live-state invariant shared by both instrumented detectors,
phrased on the raw collections: stack/path agreement, visited/stack
disjointness, a good trace so far, and every logged visited snapshot
contained in the live visited set. -/

def SnapInv (v rs p : List String) (log : List StepRec) : Prop :=
  (∀ x, x ∈ rs ↔ x ∈ p) ∧
  (∀ x ∈ v, x ∉ rs) ∧
  GoodTrace log ∧
  (∀ q ∈ log, ∀ x ∈ q.visited, x ∈ v)

/-- The invariant for the stop-at-first-cycle instrumented state. -/

def SInv (st : SSt) : Prop :=
  SnapInv st.visited st.recursionStack st.pathStack st.stepsLog

/-- The invariant for the skip-and-continue instrumented state. -/

def KInv (st : KSt) : Prop :=
  SnapInv st.visited st.recursionStack st.pathStack st.stepsLog

/-- Postcondition of one stop-at-first-cycle `dfs` call: the graph and log
grow as expected, and on a quiet (`found=false`) return the stacks are
restored. -/

def SConc (st : SSt) (r : SRes) (st' : SSt) : Prop :=
  st'.graphData = st.graphData ∧
  st.visited <+: st'.visited ∧
  (∃ L, st'.stepsLog = st.stepsLog ++ L) ∧
  (r.found = false → st'.recursionStack = st.recursionStack ∧
    st'.pathStack = st.pathStack)

theorem mem_addS {l : List String} {x y : String} :
    y ∈ addS l x ↔ y ∈ l ∨ y = x := by
  unfold addS
  split
  · rename_i h
    constructor
    · exact fun hy => Or.inl hy
    · rintro (hy | rfl)
      · exact hy
      · exact h
  · simp [List.mem_append]

theorem addS_of_not_mem {l : List String} {x : String} (h : x ∉ l) :
    addS l x = l ++ [x] := by
  unfold addS
  simp [h]

theorem prefix_addS (l : List String) (x : String) : l <+: addS l x := by
  unfold addS
  split
  · exact List.prefix_rfl
  · exact List.prefix_append l [x]

/-- A one-step-closed set of nodes is closed under reachability. -/

theorem reach_closed {g : Graph} {V : List String}
    (hV : ∀ v ∈ V, ∀ w, edgeG g v w → w ∈ V) :
    ∀ {a b}, a ∈ V → reach g a b → b ∈ V := by
  intro a b ha h
  induction h with
  | refl => exact ha
  | tail _ he ih => exact hV _ ih _ he

/-- Every member of an edge-chain is reachable from its head. -/

theorem chain_head_reach {g : Graph} :
    ∀ {l : List String} {a b : String}, List.Chain' (edgeG g) l →
      l.head? = some a → b ∈ l → reach g a b := by
  intro l
  induction l with
  | nil => intro a b _ _ hb; simp at hb
  | cons x t ih =>
    intro a b hc hh hb
    simp at hh
    subst hh
    rcases List.mem_cons.mp hb with rfl | hb
    · exact Relation.ReflTransGen.refl
    · cases t with
      | nil => simp at hb
      | cons y t' =>
        have hxy : edgeG g x y := (List.chain'_cons.mp hc).1
        exact Relation.ReflTransGen.head hxy
          (ih (List.chain'_cons.mp hc).2 rfl hb)

/-- The last element of an edge-chain is reachable from every member. -/

theorem chain_mem_reach_last {g : Graph} :
    ∀ {l : List String} {a z : String}, List.Chain' (edgeG g) l →
      l.getLast? = some z → a ∈ l → reach g a z := by
  intro l
  induction l with
  | nil => simp
  | cons x t ih =>
    intro a z hc hl ha
    cases t with
    | nil =>
      simp at hl ha
      simp_all
      exact Relation.ReflTransGen.refl
    | cons y t' =>
      have hlast : (y :: t').getLast? = some z := by
        simpa [List.getLast?_cons_cons] using hl
      rcases List.mem_cons.mp ha with rfl | ha'
      · have hxy : edgeG g a y := (List.chain'_cons.mp hc).1
        exact Relation.ReflTransGen.head hxy
          (ih (List.chain'_cons.mp hc).2 hlast (List.mem_cons_self _ _))
      · exact ih (List.chain'_cons.mp hc).2 hlast ha'

theorem DRes.found_iff {r : DRes} : r.found = true ↔ ∃ c, r = .foundAt c := by
  cases r <;> simp [DRes.found]

theorem DRes.not_found_iff {r : DRes} : r.found = false ↔ r = .notFound := by
  cases r <;> simp [DRes.found]

theorem DConc_found {cur : String} {st : DetSt} (hinv : DetInv st)
    (h1 : cur ∈ st.recursionStack) : DConc cur st (.foundAt cur) st := by
  refine ⟨hinv, rfl, List.prefix_rfl, ?_, ?_⟩
  · intro hcon; simp at hcon
  · intro c hc
    injection hc with h'
    subst h'
    exact h1

theorem DConc_visited {cur : String} {st : DetSt} (hinv : DetInv st)
    (h2 : cur ∈ st.visited) : DConc cur st .notFound st := by
  refine ⟨hinv, rfl, List.prefix_rfl, fun _ => ⟨rfl, rfl, h2⟩, ?_⟩
  intro c hc; simp at hc

/-- The neighbor loop preserves the invariant and, on a quiet return,
restores the stacks and leaves every examined neighbor visited. -/

theorem dfsDN_spec {rec : String → DetSt → Option (DRes × DetSt)}
    (hrec : DSpec rec) :
    ∀ ns st r st', DetInv st → dfsDN rec ns st = some (r, st') →
      DNConc ns st r st' := by
  intro ns
  induction ns with
  | nil =>
    intro st r st' hinv h
    simp only [dfsDN] at h
    obtain ⟨rfl, rfl⟩ : DRes.notFound = r ∧ st = st' := by simpa using h
    refine ⟨hinv, rfl, List.prefix_rfl, fun _ => ⟨rfl, rfl, by simp⟩, ?_⟩
    intro c hc; simp at hc
  | cons n rest ih =>
    intro st r st' hinv h
    simp only [dfsDN] at h
    cases hr : rec n st with
    | none => rw [hr] at h; simp at h
    | some p =>
      obtain ⟨r1, st1⟩ := p
      rw [hr] at h
      have h1 := hrec n st r1 st1 hinv hr
      by_cases hf : r1.found
      · simp only [hf, if_true] at h
        obtain ⟨rfl, rfl⟩ : r1 = r ∧ st1 = st' := by simpa using h
        obtain ⟨c, rfl⟩ := DRes.found_iff.mp hf
        refine ⟨h1.1, h1.2.1, h1.2.2.1, ?_, ?_⟩
        · intro hcon; simp at hcon
        · intro c' hc'
          injection hc' with h'
          subst h'
          exact h1.2.2.2.2 _ rfl
      · simp only [Bool.not_eq_true] at hf
        obtain rfl := DRes.not_found_iff.mp hf
        simp only [DRes.found, Bool.false_eq_true, if_false] at h
        have h2 := ih st1 r st' h1.1 h
        obtain ⟨hstack1, hpath1, hvis1⟩ := h1.2.2.2.1 rfl
        refine ⟨h2.1, h2.2.1.trans h1.2.1, h1.2.2.1.trans h2.2.2.1, ?_, h2.2.2.2.2⟩
        intro hrn
        obtain ⟨hstack2, hpath2, hvis2⟩ := h2.2.2.2.1 hrn
        refine ⟨hstack2.trans hstack1, hpath2.trans hpath1, ?_⟩
        intro m hm
        rcases List.mem_cons.mp hm with rfl | hm'
        · exact h2.2.2.1.subset hvis1
        · exact hvis2 m hm'

theorem erase_concat_self {l : List String} {a : String} (h : a ∉ l) :
    (l ++ [a]).erase a = l := by
  rw [List.erase_append_right _ h]
  simp

/-- The fresh-node step of `runDetection`'s `dfs` satisfies the `dfs`
postcondition whenever the recursive calls do. -/

theorem dfsDStep_spec {rec : String → DetSt → Option (DRes × DetSt)}
    (hrec : DSpec rec) (cur : String) (st : DetSt) (r : DRes) (st' : DetSt)
    (hinv : DetInv st) (h1 : cur ∉ st.recursionStack) (h2 : cur ∉ st.visited)
    (h : dfsDStep rec cur st = some (r, st')) : DConc cur st r st' := by
  simp only [dfsDStep] at h
  set st1 : DetSt :=
    { st with recursionStack := addS st.recursionStack cur,
              pathStack := st.pathStack ++ [cur] } with hst1
  have hstack1 : st1.recursionStack = st.recursionStack ++ [cur] := by
    simp [hst1, addS_of_not_mem h1]
  have hinv1 : DetInv st1 := by
    refine ⟨?_, ?_, hinv.clov, hinv.noloop⟩
    · intro x
      rw [hstack1]
      show _ ↔ x ∈ st.pathStack ++ [cur]
      simp [hinv.stackPath x]
    · intro x hx
      rw [hstack1]
      simp only [List.mem_append, List.mem_singleton]
      rintro (hc | rfl)
      · exact hinv.disj x hx hc
      · exact h2 hx
  cases hl : dfsDN rec (lookupD st1.graphData cur) st1 with
  | none => rw [hl] at h; cases h
  | some p =>
    obtain ⟨r1, st2⟩ := p
    rw [hl] at h
    have hN := dfsDN_spec hrec _ _ _ _ hinv1 hl
    by_cases hf : r1.found
    · simp only [hf, if_true] at h
      obtain ⟨rfl, rfl⟩ : r1 = r ∧ st2 = st' := by simpa using h
      obtain ⟨c, rfl⟩ := DRes.found_iff.mp hf
      refine ⟨hN.1, hN.2.1, hN.2.2.1, ?_, ?_⟩
      · intro hcon; simp at hcon
      · intro c' hc'
        injection hc' with h'
        subst h'
        exact hN.2.2.2.2 _ rfl
    · simp only [Bool.not_eq_true] at hf
      obtain rfl := DRes.not_found_iff.mp hf
      simp only [DRes.found, Bool.false_eq_true, if_false] at h
      obtain ⟨hstack2, hpath2, hvis2⟩ := hN.2.2.2.1 rfl
      obtain ⟨rfl, rfl⟩ : DRes.notFound = r ∧ _ = st' := by simpa using h
      have hcurstack2 : cur ∈ st2.recursionStack := by
        rw [hstack2, hstack1]; simp
      have hcurnotvis2 : cur ∉ st2.visited := fun hc => hN.1.disj cur hc hcurstack2
      have hg2 : st2.graphData = st.graphData := hN.2.1
      have hstack' : st2.recursionStack.erase cur = st.recursionStack := by
        rw [hstack2, hstack1]
        exact erase_concat_self h1
      have hpath' : st2.pathStack.dropLast = st.pathStack := by
        rw [hpath2]
        show (st.pathStack ++ [cur]).dropLast = st.pathStack
        simp
      have hvissub : ∀ x ∈ st2.visited, x ∈ addS st2.visited cur :=
        fun x hx => (prefix_addS _ _).subset hx
      have hnbrvis : ∀ w, edgeG st.graphData cur w → w ∈ st2.visited := by
        intro w hw
        exact hvis2 w (by simpa [edgeG, hg2, hst1] using hw)
      refine ⟨⟨?_, ?_, ?_, ?_⟩, by simpa using hg2, ?_, ?_, ?_⟩
      · intro x
        show x ∈ st2.recursionStack.erase cur ↔ x ∈ st2.pathStack.dropLast
        rw [hstack', hpath']
        exact hinv.stackPath x
      · intro x hx
        show x ∉ st2.recursionStack.erase cur
        rw [hstack']
        rcases mem_addS.mp hx with hx2 | rfl
        · intro hc
          exact hN.1.disj x hx2 (by rw [hstack2, hstack1]; exact List.mem_append_left _ hc)
        · exact h1
      · intro v hv w hw
        show w ∈ addS st2.visited cur
        have hw' : edgeG st.graphData v w := by simpa [hg2] using hw
        rcases mem_addS.mp hv with hv2 | rfl
        · exact hvissub _ (hN.1.clov v hv2 w (by simpa [hg2] using hw'))
        · exact hvissub _ (hnbrvis w hw')
      · intro v hv m hm hr
        have hm' : edgeG st.graphData v m := by simpa [hg2] using hm
        have hr' : reach st.graphData m v := by
          show reach st.graphData m v
          simpa [reach, hg2] using hr
        rcases mem_addS.mp hv with hv2 | rfl
        · exact hN.1.noloop v hv2 m (by simpa [hg2] using hm')
            (by simpa [reach, hg2] using hr')
        · have hmvis : m ∈ st2.visited := hnbrvis m hm'
          have hclov2 : ∀ u ∈ st2.visited, ∀ w, edgeG st.graphData u w →
              w ∈ st2.visited := by
            intro u hu w hw
            exact hN.1.clov u hu w (by simpa [hg2] using hw)
          exact hcurnotvis2 (reach_closed hclov2 hmvis hr')
      · exact (hN.2.2.1.trans (prefix_addS _ _))
      · intro _
        exact ⟨hstack', hpath', mem_addS.mpr (Or.inr rfl)⟩
      · intro c hc
        simp at hc

theorem dfsD_eq_stack {fuel : Nat} {cur : String} {st : DetSt}
    (h : cur ∈ st.recursionStack) :
    dfsD fuel cur st = some (.foundAt cur, st) := by
  unfold dfsD
  simp [h]

theorem dfsD_eq_visited {fuel : Nat} {cur : String} {st : DetSt}
    (h1 : cur ∉ st.recursionStack) (h2 : cur ∈ st.visited) :
    dfsD fuel cur st = some (.notFound, st) := by
  unfold dfsD
  simp [h1, h2]

theorem dfsD_eq_zero {cur : String} {st : DetSt}
    (h1 : cur ∉ st.recursionStack) (h2 : cur ∉ st.visited) :
    dfsD 0 cur st = none := by
  unfold dfsD
  simp [h1, h2]

theorem dfsD_eq_succ {f : Nat} {cur : String} {st : DetSt}
    (h1 : cur ∉ st.recursionStack) (h2 : cur ∉ st.visited) :
    dfsD (f + 1) cur st = dfsDStep (dfsD f) cur st := by
  unfold dfsD
  simp [h1, h2]

/-- Every fuel-indexed `dfs` of `runDetection` satisfies the
postcondition. -/

theorem dfsD_spec : ∀ fuel, DSpec (dfsD fuel) := by
  intro fuel
  induction fuel with
  | zero =>
    intro cur st r st' hinv h
    by_cases h1 : cur ∈ st.recursionStack
    · rw [dfsD_eq_stack h1] at h
      obtain ⟨rfl, rfl⟩ : DRes.foundAt cur = r ∧ st = st' := by simpa using h
      exact DConc_found hinv h1
    · by_cases h2 : cur ∈ st.visited
      · rw [dfsD_eq_visited h1 h2] at h
        obtain ⟨rfl, rfl⟩ : DRes.notFound = r ∧ st = st' := by simpa using h
        exact DConc_visited hinv h2
      · rw [dfsD_eq_zero h1 h2] at h
        cases h
  | succ f ih =>
    intro cur st r st' hinv h
    by_cases h1 : cur ∈ st.recursionStack
    · rw [dfsD_eq_stack h1] at h
      obtain ⟨rfl, rfl⟩ : DRes.foundAt cur = r ∧ st = st' := by simpa using h
      exact DConc_found hinv h1
    · by_cases h2 : cur ∈ st.visited
      · rw [dfsD_eq_visited h1 h2] at h
        obtain ⟨rfl, rfl⟩ : DRes.notFound = r ∧ st = st' := by simpa using h
        exact DConc_visited hinv h2
      · rw [dfsD_eq_succ h1 h2] at h
        exact dfsDStep_spec ih cur st r st' hinv h1 h2 h

theorem start_mem_allNodesList (g : Graph) (s : String) :
    s ∈ allNodesList g s := by
  simp [allNodesList]

/-- Every successor named in the graph occurs in `allNodesList`. -/

theorem succ_mem_allNodesList {g : Graph} {s a b : String}
    (h : edgeG g a b) : b ∈ allNodesList g s := by
  unfold edgeG lookupD lookupG at h
  cases hf : g.find? (fun kv => kv.1 = a) with
  | none => rw [hf] at h; simp at h
  | some kv =>
    rw [hf] at h
    simp at h
    have hkv : kv ∈ g := List.mem_of_find?_eq_some hf
    clear hf
    induction g with
    | nil => simp at hkv
    | cons kv0 rest ih =>
      simp [allNodesList] at *
      rcases hkv with rfl | hkv'
      · exact Or.inr (Or.inr (Or.inl h))
      · rcases ih hkv' with h' | h'
        · exact Or.inl h'
        · exact Or.inr (Or.inr (Or.inr h'))

/-- Invariant holds for the push of a fresh node. -/

theorem DetInv_push {st : DetSt} {cur : String} (hinv : DetInv st)
    (h1 : cur ∉ st.recursionStack) (h2 : cur ∉ st.visited) :
    DetInv { st with recursionStack := addS st.recursionStack cur,
                     pathStack := st.pathStack ++ [cur] } := by
  refine ⟨?_, ?_, hinv.clov, hinv.noloop⟩
  · intro x
    show x ∈ addS st.recursionStack cur ↔ x ∈ st.pathStack ++ [cur]
    rw [addS_of_not_mem h1]
    simp [hinv.stackPath x]
  · intro x hx
    show x ∉ addS st.recursionStack cur
    rw [addS_of_not_mem h1]
    simp only [List.mem_append, List.mem_singleton]
    rintro (hc | rfl)
    · exact hinv.disj x hx hc
    · exact h2 hx

/-- Sufficient fuel: the neighbor loop never runs out when its recursive
calls do not. -/

theorem dfsDN_suff {g : Graph} {s : String} {f : Nat}
    {rec : String → DetSt → Option (DRes × DetSt)} (hrecS : DSpec rec)
    (hrec : ∀ cur st, st.graphData = g → DetInv st →
      (∀ x ∈ st.recursionStack, x ∈ allNodesList g s) →
      cur ∈ allNodesList g s →
      (nodeFinset g s \ st.recursionStack.toFinset).card ≤ f →
      (rec cur st).isSome) :
    ∀ ns st, st.graphData = g → DetInv st →
      (∀ x ∈ st.recursionStack, x ∈ allNodesList g s) →
      (∀ n ∈ ns, n ∈ allNodesList g s) →
      (nodeFinset g s \ st.recursionStack.toFinset).card ≤ f →
      (dfsDN rec ns st).isSome := by
  intro ns
  induction ns with
  | nil => intro st _ _ _ _ _; simp [dfsDN]
  | cons n rest ih =>
    intro st hg hinv hstack hns hcard
    have hn := hrec n st hg hinv hstack (hns n (by simp)) hcard
    simp only [dfsDN]
    cases hr : rec n st with
    | none => rw [hr] at hn; simp at hn
    | some p =>
      obtain ⟨r1, st1⟩ := p
      have hC := hrecS n st r1 st1 hinv hr
      by_cases hf1 : r1.found
      · simp [hf1]
      · simp only [Bool.not_eq_true] at hf1
        obtain rfl := DRes.not_found_iff.mp hf1
        simp only [DRes.found, Bool.false_eq_true, if_false]
        obtain ⟨hstack1, _, _⟩ := hC.2.2.2.1 rfl
        exact ih st1 (hC.2.1.trans hg) hC.1
          (by rw [hstack1]; exact hstack)
          (fun m hm => hns m (by simp [hm]))
          (by rw [hstack1]; exact hcard)

/-- Sufficient fuel: with at least as much fuel as there are node ids not
yet on the recursion stack, `dfs` returns. -/

theorem dfsD_suff {g : Graph} {s : String} :
    ∀ fuel cur st, st.graphData = g → DetInv st →
      (∀ x ∈ st.recursionStack, x ∈ allNodesList g s) →
      cur ∈ allNodesList g s →
      (nodeFinset g s \ st.recursionStack.toFinset).card ≤ fuel →
      (dfsD fuel cur st).isSome := by
  intro fuel
  induction fuel with
  | zero =>
    intro cur st hg hinv hstack hcur hcard
    by_cases h1 : cur ∈ st.recursionStack
    · rw [dfsD_eq_stack h1]; simp
    · by_cases h2 : cur ∈ st.visited
      · rw [dfsD_eq_visited h1 h2]; simp
      · exfalso
        have hmem : cur ∈ nodeFinset g s \ st.recursionStack.toFinset := by
          simp [nodeFinset, hcur, h1]
        have : 0 < (nodeFinset g s \ st.recursionStack.toFinset).card :=
          Finset.card_pos.mpr ⟨cur, hmem⟩
        omega
  | succ f ih =>
    intro cur st hg hinv hstack hcur hcard
    by_cases h1 : cur ∈ st.recursionStack
    · rw [dfsD_eq_stack h1]; simp
    · by_cases h2 : cur ∈ st.visited
      · rw [dfsD_eq_visited h1 h2]; simp
      · rw [dfsD_eq_succ h1 h2]
        simp only [dfsDStep]
        set st1 : DetSt :=
          { st with recursionStack := addS st.recursionStack cur,
                    pathStack := st.pathStack ++ [cur] } with hst1
        have hstack1 : st1.recursionStack = st.recursionStack ++ [cur] := by
          simp [hst1, addS_of_not_mem h1]
        have hfin1 : st1.recursionStack.toFinset =
            insert cur st.recursionStack.toFinset := by
          rw [hstack1]
          ext x
          simp
          tauto
        have hcard1 :
            (nodeFinset g s \ st1.recursionStack.toFinset).card ≤ f := by
          rw [hfin1]
          have hsd : nodeFinset g s \ insert cur st.recursionStack.toFinset =
              (nodeFinset g s \ st.recursionStack.toFinset).erase cur := by
            ext x
            simp [Finset.mem_erase, Finset.mem_sdiff]
            tauto
          rw [hsd]
          have hmem : cur ∈ nodeFinset g s \ st.recursionStack.toFinset := by
            simp [nodeFinset, hcur, h1]
          rw [Finset.card_erase_of_mem hmem]
          omega
        have hloop := dfsDN_suff (g := g) (s := s) (dfsD_spec f)
          (fun cur' st' hg' hinv' hstack' hcur' hcard' =>
            ih cur' st' hg' hinv' hstack' hcur' hcard')
          (lookupD st1.graphData cur) st1 hg (DetInv_push hinv h1 h2)
          (by
            intro x hx
            rw [hstack1] at hx
            rcases List.mem_append.mp hx with hx' | hx'
            · exact hstack x hx'
            · simp at hx'
              subst hx'
              exact hcur)
          (by
            intro n hn
            refine succ_mem_allNodesList (a := cur) ?_
            simpa [edgeG, hg, hst1] using hn)
          hcard1
        cases hl : dfsDN (dfsD f) (lookupD st1.graphData cur) st1 with
        | none => rw [hl] at hloop; simp at hloop
        | some p =>
          obtain ⟨r1, st2⟩ := p
          by_cases hf1 : r1.found
          · simp [hf1]
          · simp [hf1]

/-- Soundness of the neighbor loop. -/

theorem dfsDN_sound {g : Graph} {s : String}
    {rec : String → DetSt → Option (DRes × DetSt)} (hrecS : DSpec rec)
    (hrecSound : ∀ cur st r st', st.graphData = g → DetInv st →
      List.Chain' (edgeG g) st.pathStack → reach g s cur →
      (st.pathStack = [] ∨
        ∃ p, st.pathStack.getLast? = some p ∧ edgeG g p cur) →
      rec cur st = some (r, st') → SoundConc g s r st') :
    ∀ ns st r st', st.graphData = g → DetInv st →
      List.Chain' (edgeG g) st.pathStack →
      (∀ n ∈ ns, reach g s n) →
      (∃ q, st.pathStack.getLast? = some q ∧ ∀ n ∈ ns, edgeG g q n) →
      dfsDN rec ns st = some (r, st') → SoundConc g s r st' := by
  intro ns
  induction ns with
  | nil =>
    intro st r st' _ _ _ _ _ h
    simp only [dfsDN] at h
    obtain ⟨rfl, rfl⟩ : DRes.notFound = r ∧ st = st' := by simpa using h
    intro c hc
    simp at hc
  | cons n rest ih =>
    intro st r st' hg hinv hchain hreach hconn h
    simp only [dfsDN] at h
    cases hr : rec n st with
    | none => rw [hr] at h; cases h
    | some p =>
      obtain ⟨r1, st1⟩ := p
      rw [hr] at h
      obtain ⟨q, hq, hqe⟩ := hconn
      have hC := hrecS n st r1 st1 hinv hr
      have hS := hrecSound n st r1 st1 hg hinv hchain (hreach n (by simp))
        (Or.inr ⟨q, hq, hqe n (by simp)⟩) hr
      by_cases hf : r1.found
      · simp only [hf, if_true] at h
        obtain ⟨rfl, rfl⟩ : r1 = r ∧ st1 = st' := by simpa using h
        exact hS
      · simp only [Bool.not_eq_true] at hf
        obtain rfl := DRes.not_found_iff.mp hf
        simp only [DRes.found, Bool.false_eq_true, if_false] at h
        obtain ⟨hstack1, hpath1, _⟩ := hC.2.2.2.1 rfl
        exact ih st1 r st' (hC.2.1.trans hg) hC.1 (by rw [hpath1]; exact hchain)
          (fun m hm => hreach m (by simp [hm]))
          ⟨q, by rw [hpath1]; exact hq, fun m hm => hqe m (by simp [hm])⟩ h

/-- Soundness of `dfs`: whenever it reports a cycle, the final path stack
is a real walk from the start node ending just before the culprit. -/

theorem dfsD_sound {g : Graph} {s : String} :
    ∀ fuel cur st r st', st.graphData = g → DetInv st →
      List.Chain' (edgeG g) st.pathStack → reach g s cur →
      (st.pathStack = [] ∨
        ∃ p, st.pathStack.getLast? = some p ∧ edgeG g p cur) →
      dfsD fuel cur st = some (r, st') → SoundConc g s r st' := by
  intro fuel
  induction fuel with
  | zero =>
    intro cur st r st' hg hinv hchain hcur hconn h
    by_cases h1 : cur ∈ st.recursionStack
    · rw [dfsD_eq_stack h1] at h
      obtain ⟨rfl, rfl⟩ : DRes.foundAt cur = r ∧ st = st' := by simpa using h
      intro c hc
      injection hc with hc'
      subst hc'
      have hmem : cur ∈ st.pathStack := (hinv.stackPath cur).mp h1
      refine ⟨hmem, hchain, ?_, hcur⟩
      rcases hconn with hnil | hcon
      · rw [hnil] at hmem; simp at hmem
      · exact hcon
    · by_cases h2 : cur ∈ st.visited
      · rw [dfsD_eq_visited h1 h2] at h
        obtain ⟨rfl, rfl⟩ : DRes.notFound = r ∧ st = st' := by simpa using h
        intro c hc; simp at hc
      · rw [dfsD_eq_zero h1 h2] at h; cases h
  | succ f ih =>
    intro cur st r st' hg hinv hchain hcur hconn h
    by_cases h1 : cur ∈ st.recursionStack
    · rw [dfsD_eq_stack h1] at h
      obtain ⟨rfl, rfl⟩ : DRes.foundAt cur = r ∧ st = st' := by simpa using h
      intro c hc
      injection hc with hc'
      subst hc'
      have hmem : cur ∈ st.pathStack := (hinv.stackPath cur).mp h1
      refine ⟨hmem, hchain, ?_, hcur⟩
      rcases hconn with hnil | hcon
      · rw [hnil] at hmem; simp at hmem
      · exact hcon
    · by_cases h2 : cur ∈ st.visited
      · rw [dfsD_eq_visited h1 h2] at h
        obtain ⟨rfl, rfl⟩ : DRes.notFound = r ∧ st = st' := by simpa using h
        intro c hc; simp at hc
      · rw [dfsD_eq_succ h1 h2] at h
        simp only [dfsDStep] at h
        set st1 : DetSt :=
          { st with recursionStack := addS st.recursionStack cur,
                    pathStack := st.pathStack ++ [cur] } with hst1
        have hchain1 : List.Chain' (edgeG g) st1.pathStack := by
          show List.Chain' (edgeG g) (st.pathStack ++ [cur])
          rw [List.chain'_append]
          refine ⟨hchain, List.chain'_singleton _, ?_⟩
          intro x hx y hy
          simp at hy
          subst hy
          rcases hconn with hnil | ⟨p, hp, he⟩
          · rw [hnil] at hx; simp at hx
          · rw [hp] at hx
            simp at hx
            subst hx
            exact he
        cases hl : dfsDN (dfsD f) (lookupD st1.graphData cur) st1 with
        | none => rw [hl] at h; cases h
        | some p =>
          obtain ⟨r1, st2⟩ := p
          rw [hl] at h
          have hS := dfsDN_sound (dfsD_spec f) (fun c' s' r' t' => ih c' s' r' t')
            (lookupD st1.graphData cur) st1 r1 st2 hg
            (DetInv_push hinv h1 h2) hchain1
            (fun m hm => Relation.ReflTransGen.tail hcur
              (by simpa [edgeG, hg, hst1] using hm))
            ⟨cur, by show (st.pathStack ++ [cur]).getLast? = some cur; simp,
              fun m hm => by simpa [edgeG, hg, hst1] using hm⟩ hl
          by_cases hf1 : r1.found
          · simp only [hf1, if_true] at h
            obtain ⟨rfl, rfl⟩ : r1 = r ∧ st2 = st' := by simpa using h
            exact hS
          · simp only [Bool.not_eq_true] at hf1
            obtain rfl := DRes.not_found_iff.mp hf1
            simp only [DRes.found, Bool.false_eq_true, if_false] at h
            obtain ⟨rfl, rfl⟩ : DRes.notFound = r ∧ _ = st' := by simpa using h
            intro c hc; simp at hc

/-- The extracted loop path is a closed walk: it starts and ends at the
culprit and every consecutive pair is a graph edge. -/

theorem mkLoopPath_closed {g : Graph} {path : List String} {c : String}
    (hmem : c ∈ path) (hchain : List.Chain' (edgeG g) path)
    (hlast : ∃ p, path.getLast? = some p ∧ edgeG g p c) :
    (mkLoopPath path c).head? = some c ∧
    (mkLoopPath path c).getLast? = some c ∧
    List.Chain' (edgeG g) (mkLoopPath path c) ∧
    2 ≤ (mkLoopPath path c).length := by
  obtain ⟨p, hp, he⟩ := hlast
  have hi : path.indexOf c < path.length := List.indexOf_lt_length.mpr hmem
  have hdropne : path.drop (path.indexOf c) ≠ [] := by
    intro hcon
    have := congrArg List.length hcon
    simp at this
    omega
  have hdroplast : (path.drop (path.indexOf c)).getLast? = some p := by
    conv at hp => rw [← List.take_append_drop (path.indexOf c) path]
    rwa [List.getLast?_append_of_ne_nil _ hdropne] at hp
  have hdrophead : (path.drop (path.indexOf c)).head? = some c := by
    rw [List.head?_drop]
    simp [List.getElem?_eq_getElem hi, List.getElem_indexOf hi]
  refine ⟨?_, ?_, ?_, ?_⟩
  · unfold mkLoopPath
    rw [List.head?_append_of_ne_nil _ hdropne]
    exact hdrophead
  · unfold mkLoopPath
    simp
  · unfold mkLoopPath
    rw [List.chain'_append]
    refine ⟨hchain.drop _, List.chain'_singleton _, ?_⟩
    intro x hx y hy
    simp at hy
    subst hy
    rw [hdroplast] at hx
    simp at hx
    subst hx
    exact he
  · unfold mkLoopPath
    have := List.length_pos.mpr hdropne
    simp
    omega

/-- A nontrivial closed edge-chain yields a cycle at its head. -/

theorem closed_chain_cycle {g : Graph} {L : List String} {c : String}
    (hh : L.head? = some c) (hl : L.getLast? = some c)
    (hch : List.Chain' (edgeG g) L) (hlen : 2 ≤ L.length) :
    ∃ m, edgeG g c m ∧ reach g m c := by
  cases L with
  | nil => simp at hh
  | cons a t =>
    simp at hh
    subst hh
    cases t with
    | nil => simp at hlen
    | cons y t' =>
      refine ⟨y, (List.chain'_cons.mp hch).1, ?_⟩
      have hlast : (y :: t').getLast? = some a := by
        simpa [List.getLast?_cons_cons] using hl
      exact chain_mem_reach_last (List.chain'_cons.mp hch).2 hlast
        (List.mem_cons_self _ _)

/-- The fresh initial state satisfies the invariant. -/

theorem detInit_inv (g : Graph) : DetInv (detInit g) := by
  refine ⟨?_, ?_, ?_, ?_⟩ <;> simp [detInit]

/-- The fuel chosen by `detectRun` is always sufficient. -/

theorem detectRun_isSome (g : Graph) (s : String) :
    (detectRun g s).isSome := by
  refine dfsD_suff (s := s) (fuelOf g s) s (detInit g) rfl (detInit_inv g)
    (by simp [detInit]) (start_mem_allNodesList g s) ?_
  have h1 : (detInit g).recursionStack.toFinset = (∅ : Finset String) := by
    simp [detInit]
  rw [h1, Finset.sdiff_empty]
  exact (List.toFinset_card_le _).trans (le_of_eq rfl)

/-- A quiet detection run means no cycle is reachable from the start. -/

theorem detectRun_notFound {g : Graph} {s : String} {st' : DetSt}
    (h : detectRun g s = some (.notFound, st')) : ¬ cycReach g s := by
  have hC := dfsD_spec (fuelOf g s) s (detInit g) _ st' (detInit_inv g) h
  obtain ⟨_, _, hsvis⟩ := hC.2.2.2.1 rfl
  have hg : st'.graphData = g := hC.2.1
  rintro ⟨n, m, hsn, hnm, hmn⟩
  have hclov : ∀ v ∈ st'.visited, ∀ w, edgeG g v w → w ∈ st'.visited :=
    fun v hv w hw => hC.1.clov v hv w (by rw [hg]; exact hw)
  have hn : n ∈ st'.visited := reach_closed hclov hsvis hsn
  exact hC.1.noloop n hn m (by rw [hg]; exact hnm)
    (by show reach st'.graphData m n; rw [hg]; exact hmn)

/-- A cycle report is sound: the loop path is a closed walk through a node
reachable from the start. -/

theorem detectRun_foundAt {g : Graph} {s : String} {c : String} {st' : DetSt}
    (h : detectRun g s = some (.foundAt c, st')) :
    reach g s c ∧
    (mkLoopPath st'.pathStack c).head? = some c ∧
    (mkLoopPath st'.pathStack c).getLast? = some c ∧
    List.Chain' (edgeG g) (mkLoopPath st'.pathStack c) ∧
    2 ≤ (mkLoopPath st'.pathStack c).length ∧
    cycReach g s := by
  have hS := dfsD_sound (s := s) (fuelOf g s) s (detInit g) _ st' rfl
    (detInit_inv g) (by simp [detInit]) Relation.ReflTransGen.refl
    (Or.inl (by simp [detInit])) h
  obtain ⟨hmem, hchain, hlastedge, hreach⟩ := hS c rfl
  obtain ⟨hh, hl, hch, hlen⟩ := mkLoopPath_closed hmem hchain hlastedge
  obtain ⟨m, hcm, hmc⟩ := closed_chain_cycle hh hl hch hlen
  exact ⟨hreach, hh, hl, hch, hlen, ⟨c, m, hreach, hcm, hmc⟩⟩

/-- C1: for every graph and start node that is a key of the graph,
`runDetection` returns `found = true` iff some cycle is reachable from the
start node, and whenever it does, the returned `loopPath` is a closed walk
of the graph: consecutive elements are edges and its first and last
elements coincide. -/

theorem C1_detect_iff_cycle (g : Graph) (s : String)
    (hs : (lookupG g s).isSome = true) :
    ((runDetection g s).found = true ↔ cycReach g s) ∧
    ((runDetection g s).found = true →
      ∃ L, (runDetection g s).loopPath = some L ∧ L ≠ [] ∧
        L.head? = L.getLast? ∧ List.Chain' (edgeG g) L) := by
  obtain ⟨⟨r, st'⟩, hp⟩ := Option.isSome_iff_exists.mp (detectRun_isSome g s)
  cases r with
  | notFound =>
    have hres : runDetection g s = { found := false } := by
      simp only [runDetection, hs, if_true, hp]
    constructor
    · rw [hres]
      exact iff_of_false (by simp) (detectRun_notFound hp)
    · rw [hres]
      intro hcon
      simp at hcon
  | foundAt c =>
    have hres : runDetection g s =
        { found := true, path := some st'.pathStack,
          loopPath := some (mkLoopPath st'.pathStack c) } := by
      simp only [runDetection, hs, if_true, hp]
    obtain ⟨hreach, hh, hl, hch, hlen, hcyc⟩ := detectRun_foundAt hp
    constructor
    · rw [hres]
      exact iff_of_true rfl hcyc
    · intro _
      rw [hres]
      refine ⟨mkLoopPath st'.pathStack c, rfl, ?_, ?_, hch⟩
      · intro hnil
        rw [hnil] at hh
        cases hh
      · rw [hh, hl]

/-- Witness for C1 at the repository's own test graph. -/

theorem C1_detect_iff_cycle_witness :
    (lookupG GW1 "1").isSome = true ∧
    (((runDetection GW1 "1").found = true ↔ cycReach GW1 "1") ∧
    ((runDetection GW1 "1").found = true →
      ∃ L, (runDetection GW1 "1").loopPath = some L ∧ L ≠ [] ∧
        L.head? = L.getLast? ∧ List.Chain' (edgeG GW1) L)) :=
  ⟨by decide, C1_detect_iff_cycle GW1 "1" (by decide)⟩

/-- C7: for a start node that is not a key of the graph, `runDetection`
returns the bare diagnostic result: `found = false`, no traversal output,
and a non-empty error string that names the missing node. -/

theorem C7_missing_start (g : Graph) (s : String)
    (hs : (lookupG g s).isSome = false) :
    runDetection g s =
      { found := false,
        error := some ("Node \"" ++ s ++ "\" not found in graph") } ∧
    ∃ e, (runDetection g s).error = some e ∧ e ≠ "" ∧
      ∃ pre post, e = pre ++ s ++ post := by
  have hres : runDetection g s =
      { found := false,
        error := some ("Node \"" ++ s ++ "\" not found in graph") } := by
    simp only [runDetection, hs, Bool.false_eq_true, if_false]
  refine ⟨hres, "Node \"" ++ s ++ "\" not found in graph", by rw [hres], ?_, ?_⟩
  · intro hcon
    have hlen := congrArg String.length hcon
    rw [String.length_append, String.length_append] at hlen
    have h6 : ("Node \"" : String).length = 6 := by decide
    have h0 : ("" : String).length = 0 := by decide
    omega
  · exact ⟨"Node \"", "\" not found in graph", rfl⟩

/-- Witness for C7 with the spec's missing start node `"99"`. -/

theorem C7_missing_start_witness :
    (lookupG GW1 "99").isSome = false ∧
    (runDetection GW1 "99" =
      { found := false,
        error := some ("Node \"" ++ "99" ++ "\" not found in graph") } ∧
    ∃ e, (runDetection GW1 "99").error = some e ∧ e ≠ "" ∧
      ∃ pre post, e = pre ++ "99" ++ post) :=
  ⟨by decide, C7_missing_start GW1 "99" (by decide)⟩

theorem lookupG_cons_pos {kv : String × List String} {rest : Graph} {k : String}
    (h : kv.1 = k) : lookupG (kv :: rest) k = some kv.2 := by
  unfold lookupG
  rw [List.find?_cons_of_pos _ (by simp [h])]
  rfl

theorem lookupG_cons_neg {kv : String × List String} {rest : Graph} {k : String}
    (h : ¬ kv.1 = k) : lookupG (kv :: rest) k = lookupG rest k := by
  unfold lookupG
  rw [List.find?_cons_of_neg _ (by simp [h])]

theorem lookupG_setVal_self (g : Graph) (k : String) (v : List String) :
    lookupG (setVal g k v) k = (lookupG g k).map (fun _ => v) := by
  induction g with
  | nil => simp [setVal, lookupG]
  | cons kv rest ih =>
    by_cases hk : kv.1 = k
    · show lookupG ((if kv.1 = k then (kv.1, v) else kv) :: setVal rest k v) k = _
      rw [if_pos hk]
      rw [lookupG_cons_pos (by simpa using hk), lookupG_cons_pos hk]
      rfl
    · show lookupG ((if kv.1 = k then (kv.1, v) else kv) :: setVal rest k v) k = _
      rw [if_neg hk]
      rw [lookupG_cons_neg hk, lookupG_cons_neg hk]
      exact ih

theorem lookupG_setVal_other (g : Graph) (k k' : String) (v : List String)
    (h : k' ≠ k) : lookupG (setVal g k v) k' = lookupG g k' := by
  induction g with
  | nil => simp [setVal, lookupG]
  | cons kv rest ih =>
    show lookupG ((if kv.1 = k then (kv.1, v) else kv) :: setVal rest k v) k' = _
    by_cases hk : kv.1 = k
    · rw [if_pos hk]
      have hne : ¬ kv.1 = k' := by rw [hk]; exact fun hc => h hc.symm
      rw [lookupG_cons_neg (by simpa using hne), lookupG_cons_neg hne]
      exact ih
    · rw [if_neg hk]
      by_cases hk' : kv.1 = k'
      · rw [lookupG_cons_pos hk', lookupG_cons_pos hk']
      · rw [lookupG_cons_neg hk', lookupG_cons_neg hk']
        exact ih

theorem keysOf_setVal (g : Graph) (k : String) (v : List String) :
    (setVal g k v).map Prod.fst = g.map Prod.fst := by
  induction g with
  | nil => simp [setVal]
  | cons kv rest ih =>
    show ((if kv.1 = k then (kv.1, v) else kv) :: setVal rest k v).map Prod.fst = _
    by_cases hk : kv.1 = k
    · rw [if_pos hk]
      simp only [List.map_cons]
      rw [ih]
    · rw [if_neg hk]
      simp only [List.map_cons]
      rw [ih]

theorem lookupD_setVal_self {g : Graph} {k : String} {v l : List String}
    (h : lookupG g k = some l) : lookupD (setVal g k v) k = v := by
  unfold lookupD
  rw [lookupG_setVal_self, h]
  rfl

theorem lookupD_setVal_other (g : Graph) (k k' : String) (v : List String)
    (h : k' ≠ k) : lookupD (setVal g k v) k' = lookupD g k' := by
  unfold lookupD
  rw [lookupG_setVal_other g k k' v h]

theorem lookupG_of_ne_nil {g : Graph} {k : String} (h : lookupD g k ≠ []) :
    lookupG g k = some (lookupD g k) := by
  unfold lookupD at *
  cases hx : lookupG g k with
  | none => rw [hx] at h; simp at h
  | some l => simp [hx]

/-- Edges only shrink when an index is spliced out of a successor list. -/

theorem edge_setVal_eraseIdx_sub {g : Graph} {c : String} {j : Nat}
    {l : List String} (hl : lookupG g c = some l) :
    ∀ a b, edgeG (setVal g c (l.eraseIdx j)) a b → edgeG g a b := by
  intro a b h
  unfold edgeG at *
  by_cases hac : a = c
  · subst hac
    rw [lookupD, lookupG_setVal_self, hl] at h
    simp at h
    have hb : b ∈ l := by
      rw [List.eraseIdx_eq_take_drop_succ] at h
      rcases List.mem_append.mp h with h' | h'
      · exact List.mem_of_mem_take h'
      · exact List.mem_of_mem_drop h'
    rw [lookupD, hl]
    simpa using hb
  · rwa [lookupD, lookupG_setVal_other _ _ _ _ hac] at h

/-- The invariant survives replacing the safe graph by a subgraph (and any
removed-edges log). -/

theorem EInv_shrink {st : ESt} {g' : Graph} {R : List GEdge} (hinv : EInv st)
    (hsub : ∀ a b, edgeG g' a b → edgeG st.safe a b) :
    EInv { st with safe := g', removedEdges := R } := by
  refine ⟨hinv.stackPath, hinv.disj, ?_, ?_⟩
  · intro v hv w hw
    exact hinv.clov v hv w (hsub v w hw)
  · intro v hv m hm hr
    exact hinv.noloop v hv m (hsub v m hm)
      (Relation.ReflTransGen.mono hsub hr)

theorem filter_notmem_append (D1 D2 : List GEdge) (l : List String) (k : String) :
    ((l.filter (fun n => decide (GEdge.mk k n ∉ D1))).filter
      (fun n => decide (GEdge.mk k n ∉ D2))) =
      l.filter (fun n => decide (GEdge.mk k n ∉ D1 ++ D2)) := by
  rw [List.filter_filter]
  apply List.filter_congr
  intro a _
  by_cases hm1 : GEdge.mk k a ∈ D1 <;> by_cases hm2 : GEdge.mk k a ∈ D2 <;>
    simp [hm1, hm2]

theorem filter_notmem_of_src {D : List GEdge} (l : List String) {k : String}
    (h : ∀ e ∈ D, e.source ≠ k) :
    l.filter (fun n => decide (GEdge.mk k n ∉ D)) = l := by
  rw [List.filter_eq_self]
  intro a _
  simp only [decide_eq_true_eq]
  intro hmem
  exact h _ hmem rfl

theorem edge_of_filter_char {g g' : Graph} {p : String → String → Bool}
    (h : ∀ k, lookupD g' k = (lookupD g k).filter (p k)) :
    ∀ a b, edgeG g' a b → edgeG g a b := by
  intro a b hab
  unfold edgeG at *
  rw [h a] at hab
  exact (List.mem_filter.mp hab).1

theorem elimLoop_succ_stack {rec : String → ESt → Option ESt} {cur : String}
    {j : Nat} {st : ESt} {n : String}
    (hget : (lookupD st.safe cur).get? j = some n)
    (hA : n ∈ st.recursionStack) :
    elimLoop rec cur (j + 1) st = elimLoop rec cur j
      { st with safe := setVal st.safe cur ((lookupD st.safe cur).eraseIdx j),
                removedEdges := st.removedEdges ++ [GEdge.mk cur n] } := by
  simp only [elimLoop]
  rw [hget]
  simp [hA]

theorem elimLoop_succ_visited {rec : String → ESt → Option ESt} {cur : String}
    {j : Nat} {st : ESt} {n : String}
    (hget : (lookupD st.safe cur).get? j = some n)
    (hA : n ∉ st.recursionStack) (hB : n ∈ st.visited) :
    elimLoop rec cur (j + 1) st = elimLoop rec cur j st := by
  simp only [elimLoop]
  rw [hget]
  simp [hA, hB]

theorem elimLoop_succ_fresh_none {rec : String → ESt → Option ESt}
    {cur : String} {j : Nat} {st : ESt} {n : String}
    (hget : (lookupD st.safe cur).get? j = some n)
    (hA : n ∉ st.recursionStack) (hB : n ∉ st.visited)
    (hr : rec n st = none) :
    elimLoop rec cur (j + 1) st = none := by
  simp only [elimLoop]
  rw [hget]
  simp [hA, hB, hr]

theorem elimLoop_succ_fresh_some {rec : String → ESt → Option ESt}
    {cur : String} {j : Nat} {st st1 : ESt} {n : String}
    (hget : (lookupD st.safe cur).get? j = some n)
    (hA : n ∉ st.recursionStack) (hB : n ∉ st.visited)
    (hr : rec n st = some st1) :
    elimLoop rec cur (j + 1) st = elimLoop rec cur j st1 := by
  simp only [elimLoop]
  rw [hget]
  simp [hA, hB, hr]

/-- The backwards neighbor loop satisfies its postcondition whenever the
recursive calls satisfy the frame postcondition. -/

theorem elimLoop_spec {rec : String → ESt → Option ESt} (hrecS : ESpec rec)
    (cur : String) :
    ∀ i st st', EInv st → cur ∈ st.recursionStack →
      i ≤ (lookupD st.safe cur).length →
      elimLoop rec cur i st = some st' → ELConc cur i st st' := by
  intro i
  induction i with
  | zero =>
    intro st st' hinv hcur _ h
    simp only [elimLoop] at h
    obtain rfl : st = st' := by simpa using h
    refine ⟨hinv, rfl, rfl, rfl, List.prefix_rfl, rfl, by simp, by simp,
      [], by simp, ?_, by simp, ?_⟩
    · intro n
      simp
    · intro k _
      rw [filter_notmem_of_src _ (by simp)]
  | succ j ih =>
    intro st st' hinv hcur hlen h
    simp only [ELConc]
    set l := lookupD st.safe cur with hldef
    have hj : j < l.length := by omega
    have hget : l.get? j = some (l.get ⟨j, hj⟩) := List.get?_eq_get hj
    set n := l.get ⟨j, hj⟩ with hndef
    have hnl : n ∈ l := List.get_mem l j hj
    have htakesucc : l.take (j + 1) = l.take j ++ [n] := by
      rw [List.take_succ, ← List.get?_eq_getElem?, hget]
      rfl
    have hdropj : l.drop j = n :: l.drop (j + 1) :=
      List.drop_eq_getElem_cons hj
    by_cases hA : n ∈ st.recursionStack
    · -- back-edge: splice out index j and record the removal
      rw [elimLoop_succ_stack hget hA] at h
      set stA : ESt :=
        { st with safe := setVal st.safe cur (l.eraseIdx j),
                  removedEdges := st.removedEdges ++ [GEdge.mk cur n] }
        with hstA
      have hlG : lookupG st.safe cur = some l := by
        apply lookupG_of_ne_nil
        intro hc
        rw [← hldef] at hc
        rw [hc] at hj
        simp at hj
      have hsub : ∀ a b, edgeG stA.safe a b → edgeG st.safe a b :=
        edge_setVal_eraseIdx_sub hlG
      have hinvA : EInv stA := EInv_shrink hinv hsub
      have hlA : lookupD stA.safe cur = l.take j ++ l.drop (j + 1) := by
        show lookupD (setVal st.safe cur (l.eraseIdx j)) cur = _
        rw [lookupD_setVal_self hlG, List.eraseIdx_eq_take_drop_succ]
      have htakelen : (l.take j).length = j := by
        rw [List.length_take]
        omega
      have hlAtake : (lookupD stA.safe cur).take j = l.take j := by
        rw [hlA]
        exact List.take_left' htakelen
      have hlAdrop : (lookupD stA.safe cur).drop j = l.drop (j + 1) := by
        rw [hlA]
        exact List.drop_left' htakelen
      have hlenA : j ≤ (lookupD stA.safe cur).length := by
        rw [hlA, List.length_append, htakelen]
        omega
      obtain ⟨hinv', hcal, hstk, hpth, hvis, hkeys, hlcur, hkept,
        D, hrem, hDchar, hDsrc, hDother⟩ := ih stA st' hinvA hcur hlenA h
      have hfilter_succ :
          (l.take (j + 1)).filter (fun m => decide (m ∉ st.recursionStack)) =
          (l.take j).filter (fun m => decide (m ∉ st.recursionStack)) := by
        rw [htakesucc, List.filter_append]
        simp [hA]
      have hkeysA : keysOf stA.safe = keysOf st.safe := by
        show keysOf (setVal st.safe cur (l.eraseIdx j)) = _
        exact keysOf_setVal _ _ _
      refine ⟨hinv', hcal, hstk, hpth, hvis, hkeys.trans hkeysA, ?_, ?_,
        GEdge.mk cur n :: D, ?_, ?_, ?_, ?_⟩
      · rw [hfilter_succ, hlcur, hlAtake, hlAdrop]
      · rw [hfilter_succ]
        intro m hm
        apply hkept
        rw [hlAtake]
        exact hm
      · rw [hrem]
        show (st.removedEdges ++ [GEdge.mk cur n]) ++ D =
          st.removedEdges ++ ([GEdge.mk cur n] ++ D)
        rw [List.append_assoc]
      · intro m
        rw [htakesucc]
        constructor
        · intro hmem
          rcases List.mem_cons.mp hmem with heq | hmem'
          · injection heq with h1 h2
            subst h2
            exact ⟨by simp, hA⟩
          · obtain ⟨hm1, hm2⟩ := (hDchar m).mp hmem'
            rw [hlAtake] at hm1
            exact ⟨by simp [hm1], hm2⟩
        · rintro ⟨hm1, hm2⟩
          rcases List.mem_append.mp hm1 with hm1' | hm1'
          · refine List.mem_cons_of_mem _ ((hDchar m).mpr ⟨?_, hm2⟩)
            rw [hlAtake]
            exact hm1'
          · simp at hm1'
            subst hm1'
            exact List.mem_cons_self _ _
      · intro e he
        rcases List.mem_cons.mp he with rfl | he'
        · exact ⟨by simpa [edgeG, ← hldef] using hnl, Or.inl rfl⟩
        · obtain ⟨hedge, hsrc⟩ := hDsrc e he'
          exact ⟨hsub _ _ hedge, hsrc⟩
      · intro k hk
        have hother : lookupD stA.safe k = lookupD st.safe k := by
          show lookupD (setVal st.safe cur (l.eraseIdx j)) k = _
          exact lookupD_setVal_other _ _ _ _ hk
        rw [hDother k hk, hother]
        apply List.filter_congr
        intro a _
        have hne : GEdge.mk k a ≠ GEdge.mk cur n := by
          intro hc
          injection hc with h1 _
          exact hk h1
        simp [hne]
    · by_cases hB : n ∈ st.visited
      · -- already-visited neighbor: skip
        rw [elimLoop_succ_visited hget hA hB] at h
        obtain ⟨hinv', hcal, hstk, hpth, hvis, hkeys, hlcur, hkept,
          D, hrem, hDchar, hDsrc, hDother⟩ :=
          ih st st' hinv hcur (by rw [← hldef]; omega) h
        have hfilter_succ :
            (l.take (j + 1)).filter (fun m => decide (m ∉ st.recursionStack)) =
            (l.take j).filter (fun m => decide (m ∉ st.recursionStack)) ++ [n] := by
          rw [htakesucc, List.filter_append]
          simp [hA]
        refine ⟨hinv', hcal, hstk, hpth, hvis, hkeys, ?_, ?_,
          D, hrem, ?_, hDsrc, hDother⟩
        · rw [hfilter_succ, hlcur, hdropj, List.append_assoc]
          rfl
        · rw [hfilter_succ]
          intro m hm
          rcases List.mem_append.mp hm with hm' | hm'
          · exact hkept m hm'
          · simp at hm'
            subst hm'
            exact hvis.subset hB
        · intro m
          rw [htakesucc, hDchar m]
          constructor
          · rintro ⟨hm1, hm2⟩
            exact ⟨by simp [hm1], hm2⟩
          · rintro ⟨hm1, hm2⟩
            rcases List.mem_append.mp hm1 with hm1' | hm1'
            · exact ⟨hm1', hm2⟩
            · simp at hm1'
              subst hm1'
              exact absurd hm2 hA
      · -- fresh neighbor: recurse
        cases hr : rec n st with
        | none =>
          rw [elimLoop_succ_fresh_none hget hA hB hr] at h
          cases h
        | some st1 =>
          rw [elimLoop_succ_fresh_some hget hA hB hr] at h
          obtain ⟨hinv1, hcal1, hstk1, hpth1, hvis1, hnvis1, hkeys1,
            D1, hrem1, hD1src, hD1char⟩ := hrecS n st st1 hinv hA hB hr
          have hl1 : lookupD st1.safe cur = l := by
            rw [hD1char cur, ← hldef]
            apply filter_notmem_of_src
            intro e he hc
            exact (hD1src e he).2.1 (hc ▸ hcur)
          obtain ⟨hinv', hcal, hstk, hpth, hvis, hkeys, hlcur, hkept,
            D2, hrem2, hD2char, hD2src, hD2other⟩ :=
            ih st1 st' hinv1 (by rw [hstk1]; exact hcur) (by rw [hl1]; omega) h
          have hfilter_succ :
              (l.take (j + 1)).filter (fun m => decide (m ∉ st.recursionStack)) =
              (l.take j).filter (fun m => decide (m ∉ st.recursionStack)) ++ [n] := by
            rw [htakesucc, List.filter_append]
            simp [hA]
          have hedge1sub : ∀ a b, edgeG st1.safe a b → edgeG st.safe a b :=
            edge_of_filter_char hD1char
          refine ⟨hinv', hcal.trans hcal1, hstk.trans hstk1, hpth.trans hpth1,
            hvis1.trans hvis, hkeys.trans hkeys1, ?_, ?_,
            D1 ++ D2, ?_, ?_, ?_, ?_⟩
          · rw [hfilter_succ, hlcur, hl1, hstk1, hdropj, List.append_assoc]
            rfl
          · rw [hfilter_succ]
            intro m hm
            rcases List.mem_append.mp hm with hm' | hm'
            · apply hkept
              rw [hl1, hstk1]
              exact hm'
            · simp at hm'
              subst hm'
              exact hvis.subset hnvis1
          · rw [hrem2, hrem1, List.append_assoc]
          · intro m
            rw [htakesucc]
            constructor
            · intro hmem
              rcases List.mem_append.mp hmem with hm' | hm'
              · exact absurd hcur (hD1src _ hm').2.1
              · obtain ⟨hm1, hm2⟩ := (hD2char m).mp hm'
                rw [hl1] at hm1
                rw [hstk1] at hm2
                exact ⟨by simp [hm1], hm2⟩
            · rintro ⟨hm1, hm2⟩
              rcases List.mem_append.mp hm1 with hm1' | hm1'
              · refine List.mem_append_right _ ((hD2char m).mpr ⟨?_, ?_⟩)
                · rw [hl1]
                  exact hm1'
                · rw [hstk1]
                  exact hm2
              · simp at hm1'
                subst hm1'
                exact absurd hm2 hA
          · intro e he
            rcases List.mem_append.mp he with he' | he'
            · obtain ⟨h1, h2, h3, h4⟩ := hD1src e he'
              exact ⟨h4, Or.inr ⟨h1, h2, hvis.subset h3⟩⟩
            · obtain ⟨hedge, hsrc⟩ := hD2src e he'
              refine ⟨hedge1sub _ _ hedge, ?_⟩
              rcases hsrc with rfl | ⟨h1, h2, h3⟩
              · exact Or.inl rfl
              · refine Or.inr ⟨fun hc => h1 (hvis1.subset hc), ?_, h3⟩
                rw [hstk1] at h2
                exact h2
          · intro k hk
            rw [hD2other k hk, hD1char k, filter_notmem_append]

theorem elimDfs_eq_zero (cur : String) (st : ESt) : elimDfs 0 cur st = none := by
  simp [elimDfs]

theorem elimDfs_eq_succ (f : Nat) (cur : String) (st : ESt) :
    elimDfs (f + 1) cur st = elimStep (elimDfs f) cur st := by
  simp [elimDfs]

/-- Pushing a fresh node preserves the elimination invariant. -/

theorem EInv_push {st : ESt} {cur : String} (hinv : EInv st)
    (h1 : cur ∉ st.recursionStack) (h2 : cur ∉ st.visited) :
    EInv { st with recursionStack := addS st.recursionStack cur,
                   pathStack := st.pathStack ++ [cur] } := by
  refine ⟨?_, ?_, hinv.clov, hinv.noloop⟩
  · intro x
    show x ∈ addS st.recursionStack cur ↔ x ∈ st.pathStack ++ [cur]
    rw [addS_of_not_mem h1]
    simp [hinv.stackPath x]
  · intro x hx
    show x ∉ addS st.recursionStack cur
    rw [addS_of_not_mem h1]
    simp only [List.mem_append, List.mem_singleton]
    rintro (hc | rfl)
    · exact hinv.disj x hx hc
    · exact h2 hx

/-- One fresh-node `dfs` frame of `removeCycles` satisfies the frame
postcondition whenever its recursive calls do. -/

theorem elimStep_spec {rec : String → ESt → Option ESt} (hrecS : ESpec rec)
    (cur : String) (st st' : ESt) (hinv : EInv st)
    (h1 : cur ∉ st.recursionStack) (h2 : cur ∉ st.visited)
    (h : elimStep rec cur st = some st') : EConc cur st st' := by
  simp only [elimStep] at h
  set st1 : ESt :=
    { st with recursionStack := addS st.recursionStack cur,
              pathStack := st.pathStack ++ [cur] } with hst1
  have hstack1 : st1.recursionStack = st.recursionStack ++ [cur] := by
    simp [hst1, addS_of_not_mem h1]
  have hinv1 : EInv st1 := EInv_push hinv h1 h2
  have hcur1 : cur ∈ st1.recursionStack := by
    rw [hstack1]
    simp
  cases hl : elimLoop rec cur (lookupD st1.safe cur).length st1 with
  | none => rw [hl] at h; cases h
  | some st2 =>
    rw [hl] at h
    obtain rfl : _ = st' := by simpa using h
    obtain ⟨hinv2, hcal2, hstk2, hpth2, hvis2, hkeys2, hlcur2, hkept2,
      D, hrem2, hDchar, hDsrc, hDother⟩ :=
      elimLoop_spec hrecS cur _ st1 st2 hinv1 hcur1 (le_refl _) hl
    have hsafe1 : st1.safe = st.safe := rfl
    set l := lookupD st.safe cur with hldef
    have hl1 : lookupD st1.safe cur = l := rfl
    have hlcur2' : lookupD st2.safe cur =
        l.filter (fun m => decide (m ∉ st1.recursionStack)) := by
      rw [hlcur2, List.take_length, List.drop_length, List.append_nil]
    have hkept2' : ∀ m ∈ l.filter (fun m => decide (m ∉ st1.recursionStack)),
        m ∈ st2.visited := by
      intro m hm
      apply hkept2
      rw [List.take_length]
      exact hm
    have hcurstack2 : cur ∈ st2.recursionStack := by
      rw [hstk2]
      exact hcur1
    have hcurnotvis2 : cur ∉ st2.visited :=
      fun hc => hinv2.disj cur hc hcurstack2
    have hstack3 : st2.recursionStack.erase cur = st.recursionStack := by
      rw [hstk2, hstack1]
      exact erase_concat_self h1
    have hpath3 : st2.pathStack.dropLast = st.pathStack := by
      rw [hpth2]
      show (st.pathStack ++ [cur]).dropLast = st.pathStack
      simp
    have hvsub : ∀ x ∈ st2.visited, x ∈ addS st2.visited cur :=
      fun x hx => (prefix_addS _ _).subset hx
    have hedgecur : ∀ m, edgeG st2.safe cur m → m ∈ st2.visited := by
      intro m hm
      apply hkept2'
      rw [← hlcur2']
      exact hm
    refine ⟨⟨?_, ?_, ?_, ?_⟩, hcal2, hstack3, hpath3,
      hvis2.trans (prefix_addS _ _), mem_addS.mpr (Or.inr rfl),
      hkeys2, D, hrem2, ?_, ?_⟩
    · intro x
      show x ∈ st2.recursionStack.erase cur ↔ x ∈ st2.pathStack.dropLast
      rw [hstack3, hpath3]
      exact hinv.stackPath x
    · intro x hx
      show x ∉ st2.recursionStack.erase cur
      rw [hstack3]
      rcases mem_addS.mp hx with hx2 | rfl
      · intro hc
        exact hinv2.disj x hx2 (by rw [hstk2, hstack1]; exact List.mem_append_left _ hc)
      · exact h1
    · intro v hv w hw
      show w ∈ addS st2.visited cur
      rcases mem_addS.mp hv with hv2 | rfl
      · exact hvsub _ (hinv2.clov v hv2 w hw)
      · exact hvsub _ (hedgecur w hw)
    · intro v hv m hm hr
      rcases mem_addS.mp hv with hv2 | rfl
      · exact hinv2.noloop v hv2 m hm hr
      · have hmvis : m ∈ st2.visited := hedgecur m hm
        exact hcurnotvis2 (reach_closed hinv2.clov hmvis hr)
    · intro e he
      obtain ⟨hedge, hsrc⟩ := hDsrc e he
      rcases hsrc with rfl | ⟨hs1, hs2, hs3⟩
      · exact ⟨h2, h1, mem_addS.mpr (Or.inr rfl), hedge⟩
      · refine ⟨hs1, ?_, hvsub _ hs3, hedge⟩
        intro hc
        exact hs2 (by rw [hstack1]; exact List.mem_append_left _ hc)
    · intro k
      by_cases hk : k = cur
      · subst hk
        show lookupD st2.safe k = _
        rw [hlcur2']
        apply List.filter_congr
        intro a ha
        have hch := hDchar a
        rw [List.take_length] at hch
        have hiff : GEdge.mk k a ∈ D ↔ a ∈ st1.recursionStack :=
          ⟨fun hx => (hch.mp hx).2, fun hx => hch.mpr ⟨ha, hx⟩⟩
        by_cases hm : a ∈ st1.recursionStack
        · simp [hm, hiff.mpr hm]
        · have hnd : GEdge.mk k a ∉ D := fun hc => hm (hiff.mp hc)
          simp [hm, hnd]
      · show lookupD st2.safe k = _
        rw [hDother k hk]

/-- Every fuel-indexed `dfs` of `removeCycles` satisfies the frame
postcondition. -/

theorem elimDfs_spec : ∀ fuel, ESpec (elimDfs fuel) := by
  intro fuel
  induction fuel with
  | zero =>
    intro cur st st' _ _ _ h
    rw [elimDfs_eq_zero] at h
    cases h
  | succ f ih =>
    intro cur st st' hinv h1 h2 h
    rw [elimDfs_eq_succ] at h
    exact elimStep_spec ih cur st st' hinv h1 h2 h

/-- Sufficient fuel for the backwards neighbor loop. -/

theorem elimLoop_suff {g : Graph} {s : String} {f : Nat}
    {rec : String → ESt → Option ESt} (hrecS : ESpec rec)
    (hrec : ∀ cur st, EInv st → cur ∉ st.recursionStack → cur ∉ st.visited →
      (∀ a b, edgeG st.safe a b → b ∈ allNodesList g s) →
      (∀ x ∈ st.recursionStack, x ∈ allNodesList g s) →
      cur ∈ allNodesList g s →
      (nodeFinset g s \ st.recursionStack.toFinset).card ≤ f →
      (rec cur st).isSome) (cur : String) :
    ∀ i st, EInv st → cur ∈ st.recursionStack →
      i ≤ (lookupD st.safe cur).length →
      (∀ a b, edgeG st.safe a b → b ∈ allNodesList g s) →
      (∀ x ∈ st.recursionStack, x ∈ allNodesList g s) →
      (nodeFinset g s \ st.recursionStack.toFinset).card ≤ f →
      (elimLoop rec cur i st).isSome := by
  intro i
  induction i with
  | zero =>
    intro st _ _ _ _ _ _
    simp [elimLoop]
  | succ j ih =>
    intro st hinv hcur hlen hns hstkns hcard
    have hj : j < (lookupD st.safe cur).length := by omega
    have hget : (lookupD st.safe cur).get? j =
        some ((lookupD st.safe cur).get ⟨j, hj⟩) := List.get?_eq_get hj
    set n := (lookupD st.safe cur).get ⟨j, hj⟩ with hndef
    have hnl : n ∈ lookupD st.safe cur := List.get_mem _ j hj
    have hnNS : n ∈ allNodesList g s := hns cur n hnl
    by_cases hA : n ∈ st.recursionStack
    · rw [elimLoop_succ_stack hget hA]
      set stA : ESt :=
        { st with safe := setVal st.safe cur ((lookupD st.safe cur).eraseIdx j),
                  removedEdges := st.removedEdges ++ [GEdge.mk cur n] }
        with hstA
      have hlG : lookupG st.safe cur = some (lookupD st.safe cur) := by
        apply lookupG_of_ne_nil
        intro hc
        rw [hc] at hj
        simp at hj
      have hsub : ∀ a b, edgeG stA.safe a b → edgeG st.safe a b :=
        edge_setVal_eraseIdx_sub hlG
      have hlA : lookupD stA.safe cur =
          (lookupD st.safe cur).take j ++ (lookupD st.safe cur).drop (j + 1) := by
        show lookupD (setVal st.safe cur ((lookupD st.safe cur).eraseIdx j)) cur = _
        rw [lookupD_setVal_self hlG, List.eraseIdx_eq_take_drop_succ]
      have htakelen : ((lookupD st.safe cur).take j).length = j := by
        rw [List.length_take]
        omega
      apply ih stA (EInv_shrink hinv hsub) hcur
      · rw [hlA, List.length_append, htakelen]
        omega
      · exact fun a b hab => hns a b (hsub a b hab)
      · exact hstkns
      · exact hcard
    · by_cases hB : n ∈ st.visited
      · rw [elimLoop_succ_visited hget hA hB]
        exact ih st hinv hcur (by omega) hns hstkns hcard
      · have hn := hrec n st hinv hA hB hns hstkns hnNS hcard
        cases hr : rec n st with
        | none => rw [hr] at hn; simp at hn
        | some st1 =>
          rw [elimLoop_succ_fresh_some hget hA hB hr]
          obtain ⟨hinv1, _, hstk1, _, _, _, _,
            D1, _, hD1src, hD1char⟩ := hrecS n st st1 hinv hA hB hr
          have hl1 : lookupD st1.safe cur = lookupD st.safe cur := by
            rw [hD1char cur]
            apply filter_notmem_of_src
            intro e he hc
            exact (hD1src e he).2.1 (hc ▸ hcur)
          apply ih st1 hinv1 (by rw [hstk1]; exact hcur)
          · rw [hl1]
            omega
          · intro a b hab
            exact hns a b (edge_of_filter_char hD1char a b hab)
          · rw [hstk1]
            exact hstkns
          · rw [hstk1]
            exact hcard

/-- Sufficient fuel for `removeCycles`'s `dfs`. -/

theorem elimDfs_suff {g : Graph} {s : String} :
    ∀ fuel cur st, EInv st → cur ∉ st.recursionStack → cur ∉ st.visited →
      (∀ a b, edgeG st.safe a b → b ∈ allNodesList g s) →
      (∀ x ∈ st.recursionStack, x ∈ allNodesList g s) →
      cur ∈ allNodesList g s →
      (nodeFinset g s \ st.recursionStack.toFinset).card ≤ fuel →
      (elimDfs fuel cur st).isSome := by
  intro fuel
  induction fuel with
  | zero =>
    intro cur st _ h1 _ _ _ hcur hcard
    exfalso
    have hmem : cur ∈ nodeFinset g s \ st.recursionStack.toFinset := by
      simp [nodeFinset, hcur, h1]
    have := Finset.card_pos.mpr ⟨cur, hmem⟩
    omega
  | succ f ih =>
    intro cur st hinv h1 h2 hns hstkns hcur hcard
    rw [elimDfs_eq_succ]
    simp only [elimStep]
    set st1 : ESt :=
      { st with recursionStack := addS st.recursionStack cur,
                pathStack := st.pathStack ++ [cur] } with hst1
    have hstack1 : st1.recursionStack = st.recursionStack ++ [cur] := by
      simp [hst1, addS_of_not_mem h1]
    have hfin1 : st1.recursionStack.toFinset =
        insert cur st.recursionStack.toFinset := by
      rw [hstack1]
      ext x
      simp
      tauto
    have hcard1 : (nodeFinset g s \ st1.recursionStack.toFinset).card ≤ f := by
      rw [hfin1]
      have hsd : nodeFinset g s \ insert cur st.recursionStack.toFinset =
          (nodeFinset g s \ st.recursionStack.toFinset).erase cur := by
        ext x
        simp [Finset.mem_erase, Finset.mem_sdiff]
        tauto
      rw [hsd]
      have hmem : cur ∈ nodeFinset g s \ st.recursionStack.toFinset := by
        simp [nodeFinset, hcur, h1]
      rw [Finset.card_erase_of_mem hmem]
      omega
    have hloop := elimLoop_suff (g := g) (s := s) (elimDfs_spec f)
      (fun cur' st' hinv' ha hb hc hd he hf => ih cur' st' hinv' ha hb hc hd he hf)
      cur (lookupD st1.safe cur).length st1 (EInv_push hinv h1 h2)
      (by rw [hstack1]; simp) (le_refl _) hns
      (by
        intro x hx
        rw [hstack1] at hx
        rcases List.mem_append.mp hx with hx' | hx'
        · exact hstkns x hx'
        · simp at hx'
          subst hx'
          exact hcur)
      hcard1
    cases hl : elimLoop (elimDfs f) cur (lookupD st1.safe cur).length st1 with
    | none => rw [hl] at hloop; simp at hloop
    | some st2 => simp

/-- Every removal performed by the neighbor loop has a source reachable
from the run's start node in the input graph. -/

theorem elimLoop_srcReach {g : Graph} {s : String}
    {rec : String → ESt → Option ESt} (hrecS : ESpec rec)
    (hrecR : ∀ cur st st', EInv st → cur ∉ st.recursionStack →
      cur ∉ st.visited → (∀ a b, edgeG st.safe a b → edgeG g a b) →
      reach g s cur → rec cur st = some st' →
      ∀ e ∈ st'.removedEdges, e ∈ st.removedEdges ∨ reach g s e.source)
    (cur : String) :
    ∀ i st st', EInv st → cur ∈ st.recursionStack →
      i ≤ (lookupD st.safe cur).length →
      (∀ a b, edgeG st.safe a b → edgeG g a b) → reach g s cur →
      elimLoop rec cur i st = some st' →
      ∀ e ∈ st'.removedEdges, e ∈ st.removedEdges ∨ reach g s e.source := by
  intro i
  induction i with
  | zero =>
    intro st st' _ _ _ _ _ h e he
    simp only [elimLoop] at h
    obtain rfl : st = st' := by simpa using h
    exact Or.inl he
  | succ j ih =>
    intro st st' hinv hcur hlen hsubg hreach h
    have hj : j < (lookupD st.safe cur).length := by omega
    have hget : (lookupD st.safe cur).get? j =
        some ((lookupD st.safe cur).get ⟨j, hj⟩) := List.get?_eq_get hj
    set n := (lookupD st.safe cur).get ⟨j, hj⟩ with hndef
    have hnl : n ∈ lookupD st.safe cur := List.get_mem _ j hj
    have hedgecurn : edgeG g cur n := hsubg cur n hnl
    by_cases hA : n ∈ st.recursionStack
    · rw [elimLoop_succ_stack hget hA] at h
      set stA : ESt :=
        { st with safe := setVal st.safe cur ((lookupD st.safe cur).eraseIdx j),
                  removedEdges := st.removedEdges ++ [GEdge.mk cur n] }
        with hstA
      have hlG : lookupG st.safe cur = some (lookupD st.safe cur) := by
        apply lookupG_of_ne_nil
        intro hc
        rw [hc] at hj
        simp at hj
      have hsub : ∀ a b, edgeG stA.safe a b → edgeG st.safe a b :=
        edge_setVal_eraseIdx_sub hlG
      have hlA : lookupD stA.safe cur =
          (lookupD st.safe cur).take j ++ (lookupD st.safe cur).drop (j + 1) := by
        show lookupD (setVal st.safe cur ((lookupD st.safe cur).eraseIdx j)) cur = _
        rw [lookupD_setVal_self hlG, List.eraseIdx_eq_take_drop_succ]
      have htakelen : ((lookupD st.safe cur).take j).length = j := by
        rw [List.length_take]
        omega
      intro e he
      have hrec := ih stA st' (EInv_shrink hinv hsub) hcur
        (by rw [hlA, List.length_append, htakelen]; omega)
        (fun a b hab => hsubg a b (hsub a b hab)) hreach h e he
      rcases hrec with hmem | hr
      · rcases List.mem_append.mp hmem with hmem' | hmem'
        · exact Or.inl hmem'
        · simp at hmem'
          subst hmem'
          exact Or.inr hreach
      · exact Or.inr hr
    · by_cases hB : n ∈ st.visited
      · rw [elimLoop_succ_visited hget hA hB] at h
        exact ih st st' hinv hcur (by omega) hsubg hreach h
      · cases hr : rec n st with
        | none =>
          rw [elimLoop_succ_fresh_none hget hA hB hr] at h
          cases h
        | some st1 =>
          rw [elimLoop_succ_fresh_some hget hA hB hr] at h
          obtain ⟨hinv1, _, hstk1, _, _, _, _,
            D1, _, hD1src, hD1char⟩ := hrecS n st st1 hinv hA hB hr
          have hreach1 : reach g s n :=
            Relation.ReflTransGen.tail hreach hedgecurn
          have hR1 := hrecR n st st1 hinv hA hB hsubg hreach1 hr
          have hl1 : lookupD st1.safe cur = lookupD st.safe cur := by
            rw [hD1char cur]
            apply filter_notmem_of_src
            intro e he hc
            exact (hD1src e he).2.1 (hc ▸ hcur)
          intro e he
          have hrec := ih st1 st' hinv1 (by rw [hstk1]; exact hcur)
            (by rw [hl1]; omega)
            (fun a b hab => hsubg a b (edge_of_filter_char hD1char a b hab))
            hreach h e he
          rcases hrec with hmem | hrch
          · exact hR1 e hmem
          · exact Or.inr hrch

/-- Every removal performed by `removeCycles`'s `dfs` has a source
reachable from the start node in the input graph. -/

theorem elimDfs_srcReach {g : Graph} {s : String} :
    ∀ fuel cur st st', EInv st → cur ∉ st.recursionStack →
      cur ∉ st.visited → (∀ a b, edgeG st.safe a b → edgeG g a b) →
      reach g s cur → elimDfs fuel cur st = some st' →
      ∀ e ∈ st'.removedEdges, e ∈ st.removedEdges ∨ reach g s e.source := by
  intro fuel
  induction fuel with
  | zero =>
    intro cur st st' _ _ _ _ _ h
    rw [elimDfs_eq_zero] at h
    cases h
  | succ f ih =>
    intro cur st st' hinv h1 h2 hsubg hreach h
    rw [elimDfs_eq_succ] at h
    simp only [elimStep] at h
    set st1 : ESt :=
      { st with recursionStack := addS st.recursionStack cur,
                pathStack := st.pathStack ++ [cur] } with hst1
    have hstack1 : st1.recursionStack = st.recursionStack ++ [cur] := by
      simp [hst1, addS_of_not_mem h1]
    cases hl : elimLoop (elimDfs f) cur (lookupD st1.safe cur).length st1 with
    | none => rw [hl] at h; cases h
    | some st2 =>
      rw [hl] at h
      obtain rfl : _ = st' := by simpa using h
      intro e he
      exact elimLoop_srcReach (elimDfs_spec f) ih cur
        (lookupD st1.safe cur).length st1 st2 (EInv_push hinv h1 h2)
        (by rw [hstack1]; simp) (le_refl _) hsubg hreach hl e he

/-- The fresh elimination state satisfies the invariant. -/

theorem elimInit_inv (g : Graph) : EInv (elimInit g) := by
  refine ⟨?_, ?_, ?_, ?_⟩ <;> simp [elimInit]

/-- No cycle is reachable from a node that is not a key. -/

theorem cycReach_no_key {g : Graph} {s : String}
    (hs : (lookupG g s).isSome = false) : ¬ cycReach g s := by
  rintro ⟨n, m, hsn, hnm, hmn⟩
  have hlook : lookupD g s = [] := by
    unfold lookupD
    cases hx : lookupG g s with
    | none => rfl
    | some l => rw [hx] at hs; simp at hs
  rcases Relation.ReflTransGen.cases_head hsn with rfl | ⟨b, hsb, _⟩
  · revert hnm
    unfold edgeG
    rw [hlook]
    simp
  · revert hsb
    unfold edgeG
    rw [hlook]
    simp

/-- The fuel chosen by `elimRun` is always sufficient. -/

theorem elimRun_isSome (g : Graph) (s : String) : (elimRun g s).isSome := by
  unfold elimRun
  split
  · refine elimDfs_suff (g := g) (s := s) (fuelOf g s) s (elimInit g)
      (elimInit_inv g) (by simp [elimInit]) (by simp [elimInit])
      (fun a b hab => succ_mem_allNodesList hab)
      (by simp [elimInit]) (start_mem_allNodesList g s) ?_
    have h1 : (elimInit g).recursionStack.toFinset = (∅ : Finset String) := by
      simp [elimInit]
    rw [h1, Finset.sdiff_empty]
    exact List.toFinset_card_le _
  · simp

/-- Full characterisation of `removeCycles`: keys are preserved, each
key's successor list is the input list with exactly the recorded removed
edges filtered out, every removed edge was a real input edge with source
reachable from the start, and no cycle is reachable from the start in the
result. -/

theorem removeCycles_spec (g : Graph) (s : String) :
    keysOf (removeCycles g s).safeGraph = keysOf g ∧
    (∀ k, lookupD (removeCycles g s).safeGraph k =
      (lookupD g k).filter
        (fun n => decide (GEdge.mk k n ∉ (removeCycles g s).removedEdges))) ∧
    (∀ e ∈ (removeCycles g s).removedEdges,
      edgeG g e.source e.target ∧ reach g s e.source) ∧
    ¬ cycReach (removeCycles g s).safeGraph s := by
  obtain ⟨st', helim⟩ := Option.isSome_iff_exists.mp (elimRun_isSome g s)
  have hres : removeCycles g s =
      { safeGraph := st'.safe, removedEdges := st'.removedEdges } := by
    simp only [removeCycles, helim]
  rw [hres]
  by_cases hs : (lookupG g s).isSome
  · have hrun : elimDfs (fuelOf g s) s (elimInit g) = some st' := by
      rw [← helim]
      unfold elimRun
      rw [if_pos hs]
    obtain ⟨hinv', hcal, hstk, hpth, hvis, hsvis, hkeys,
      D, hDrem, hDsrc, hDchar⟩ :=
      elimDfs_spec (fuelOf g s) s (elimInit g) st' (elimInit_inv g)
        (by simp [elimInit]) (by simp [elimInit]) hrun
    have hDrem' : st'.removedEdges = D := by
      rw [hDrem]
      rfl
    have hsrcR := elimDfs_srcReach (g := g) (s := s) (fuelOf g s) s
      (elimInit g) st' (elimInit_inv g) (by simp [elimInit])
      (by simp [elimInit]) (fun a b hab => hab) Relation.ReflTransGen.refl hrun
    refine ⟨hkeys, ?_, ?_, ?_⟩
    · intro k
      show lookupD st'.safe k = (lookupD g k).filter
        (fun n => decide (GEdge.mk k n ∉ st'.removedEdges))
      rw [hDrem']
      exact hDchar k
    · intro e he
      have he' : e ∈ st'.removedEdges := he
      have heD : e ∈ D := by rw [← hDrem']; exact he'
      refine ⟨(hDsrc e heD).2.2.2, ?_⟩
      rcases hsrcR e he' with hmem | hr
      · simp [elimInit] at hmem
      · exact hr
    · show ¬ cycReach st'.safe s
      rintro ⟨n, m, hsn, hnm, hmn⟩
      have hn : n ∈ st'.visited := reach_closed hinv'.clov hsvis hsn
      exact hinv'.noloop n hn m hnm hmn
  · have hst' : st' = elimInit g := by
      have : elimRun g s = some (elimInit g) := by
        unfold elimRun
        rw [if_neg hs]
      rw [this] at helim
      exact (Option.some.injEq _ _ ▸ helim).symm
    subst hst'
    refine ⟨rfl, ?_, by simp [elimInit], ?_⟩
    · intro k
      show lookupD g k = _
      rw [filter_notmem_of_src _ (by simp [elimInit])]
    · exact cycReach_no_key (by simpa using hs)

/-- C2: the graph returned by `removeCycles` has no cycle reachable from
the start node; it is the input graph with exactly the recorded removed
edges deleted (same keys in the same order, each successor list filtered
by the removed-edge list); every removed edge existed in the input; and
keys not reachable from the start keep their successor lists untouched. -/

theorem C2_removeCycles_correct (g : Graph) (s : String) :
    ¬ cycReach (removeCycles g s).safeGraph s ∧
    keysOf (removeCycles g s).safeGraph = keysOf g ∧
    (∀ k, lookupD (removeCycles g s).safeGraph k =
      (lookupD g k).filter
        (fun n => decide (GEdge.mk k n ∉ (removeCycles g s).removedEdges))) ∧
    (∀ e ∈ (removeCycles g s).removedEdges, edgeG g e.source e.target) ∧
    (∀ k, ¬ reach g s k →
      lookupD (removeCycles g s).safeGraph k = lookupD g k) := by
  obtain ⟨hkeys, hchar, hsrc, hacyc⟩ := removeCycles_spec g s
  refine ⟨hacyc, hkeys, hchar, fun e he => (hsrc e he).1, ?_⟩
  intro k hk
  rw [hchar k]
  apply filter_notmem_of_src
  intro e he hc
  exact hk (hc ▸ (hsrc e he).2)

/-- C5 counterexample: on the repository's own test graph, `removeCycles`
does not remove a single edge. -/

theorem C5_not_single_edge :
    ¬ ((removeCycles GW1 "1").removedEdges = [GEdge.mk "3" "2"] ∨
       (removeCycles GW1 "1").removedEdges = [GEdge.mk "3" "1"]) := by
  decide

/-- C5 (amended): on the test graph, `removeCycles` removes both
back-edges, first `(3,1)` then `(3,2)` (reverse successor order), and the
resulting graph has no cycle reachable from `"1"`. -/

theorem C5_eliminate_concrete :
    (removeCycles GW1 "1").removedEdges =
      [GEdge.mk "3" "1", GEdge.mk "3" "2"] ∧
    ¬ cycReach (removeCycles GW1 "1").safeGraph "1" :=
  ⟨by decide, (removeCycles_spec GW1 "1").2.2.2⟩

/-- On a graph with no cycle reachable from the start, the neighbor loop
never removes an edge and never changes the safe graph. -/

theorem elimLoop_noRemove {d : Graph} {s : String}
    {rec : String → ESt → Option ESt} (hcyc : ¬ cycReach d s)
    (hrecS : ESpec rec)
    (hrecNR : ∀ cur st st', EInv st → cur ∉ st.recursionStack →
      cur ∉ st.visited → st.safe = d →
      (∀ v ∈ st.recursionStack, reach d s v) →
      List.Chain' (edgeG d) st.pathStack → reach d s cur →
      (st.pathStack = [] ∨
        ∃ p, st.pathStack.getLast? = some p ∧ edgeG d p cur) →
      rec cur st = some st' →
      st'.safe = d ∧ st'.removedEdges = st.removedEdges)
    (cur : String) :
    ∀ i st st', EInv st → cur ∈ st.recursionStack →
      i ≤ (lookupD st.safe cur).length → st.safe = d →
      (∀ v ∈ st.recursionStack, reach d s v) →
      List.Chain' (edgeG d) st.pathStack →
      st.pathStack.getLast? = some cur →
      elimLoop rec cur i st = some st' →
      st'.safe = d ∧ st'.removedEdges = st.removedEdges := by
  intro i
  induction i with
  | zero =>
    intro st st' _ _ _ hsafe _ _ _ h
    simp only [elimLoop] at h
    obtain rfl : st = st' := by simpa using h
    exact ⟨hsafe, rfl⟩
  | succ j ih =>
    intro st st' hinv hcur hlen hsafe hstkR hchain hlast h
    have hj : j < (lookupD st.safe cur).length := by omega
    have hget : (lookupD st.safe cur).get? j =
        some ((lookupD st.safe cur).get ⟨j, hj⟩) := List.get?_eq_get hj
    set n := (lookupD st.safe cur).get ⟨j, hj⟩ with hndef
    have hnl : n ∈ lookupD st.safe cur := List.get_mem _ j hj
    have hedgecurn : edgeG d cur n := by
      rw [← hsafe]
      exact hnl
    by_cases hA : n ∈ st.recursionStack
    · exfalso
      apply hcyc
      refine ⟨cur, n, hstkR cur hcur, hedgecurn, ?_⟩
      exact chain_mem_reach_last hchain hlast ((hinv.stackPath n).mp hA)
    · by_cases hB : n ∈ st.visited
      · rw [elimLoop_succ_visited hget hA hB] at h
        exact ih st st' hinv hcur (by omega) hsafe hstkR hchain hlast h
      · cases hr : rec n st with
        | none =>
          rw [elimLoop_succ_fresh_none hget hA hB hr] at h
          cases h
        | some st1 =>
          rw [elimLoop_succ_fresh_some hget hA hB hr] at h
          obtain ⟨hsafe1, hrem1⟩ := hrecNR n st st1 hinv hA hB hsafe hstkR
            hchain (Relation.ReflTransGen.tail (hstkR cur hcur) hedgecurn)
            (Or.inr ⟨cur, hlast, hedgecurn⟩) hr
          obtain ⟨hinv1, _, hstk1, hpth1, _, _, _, _, _, _, _⟩ :=
            hrecS n st st1 hinv hA hB hr
          obtain ⟨hsafe', hrem'⟩ := ih st1 st' hinv1
            (by rw [hstk1]; exact hcur)
            (by rw [hsafe1, ← hsafe]; omega)
            hsafe1 (by rw [hstk1]; exact hstkR)
            (by rw [hpth1]; exact hchain) (by rw [hpth1]; exact hlast) h
          exact ⟨hsafe', hrem'.trans hrem1⟩

/-- On a graph with no cycle reachable from the start, `removeCycles`'s
`dfs` removes nothing. -/

theorem elimDfs_noRemove {d : Graph} {s : String} (hcyc : ¬ cycReach d s) :
    ∀ fuel cur st st', EInv st → cur ∉ st.recursionStack →
      cur ∉ st.visited → st.safe = d →
      (∀ v ∈ st.recursionStack, reach d s v) →
      List.Chain' (edgeG d) st.pathStack → reach d s cur →
      (st.pathStack = [] ∨
        ∃ p, st.pathStack.getLast? = some p ∧ edgeG d p cur) →
      elimDfs fuel cur st = some st' →
      st'.safe = d ∧ st'.removedEdges = st.removedEdges := by
  intro fuel
  induction fuel with
  | zero =>
    intro cur st st' _ _ _ _ _ _ _ _ h
    rw [elimDfs_eq_zero] at h
    cases h
  | succ f ih =>
    intro cur st st' hinv h1 h2 hsafe hstkR hchain hreach hconn h
    rw [elimDfs_eq_succ] at h
    simp only [elimStep] at h
    set st1 : ESt :=
      { st with recursionStack := addS st.recursionStack cur,
                pathStack := st.pathStack ++ [cur] } with hst1
    have hstack1 : st1.recursionStack = st.recursionStack ++ [cur] := by
      simp [hst1, addS_of_not_mem h1]
    have hchain1 : List.Chain' (edgeG d) st1.pathStack := by
      show List.Chain' (edgeG d) (st.pathStack ++ [cur])
      rw [List.chain'_append]
      refine ⟨hchain, List.chain'_singleton _, ?_⟩
      intro x hx y hy
      simp at hy
      subst hy
      rcases hconn with hnil | ⟨p, hp, he⟩
      · rw [hnil] at hx
        simp at hx
      · rw [hp] at hx
        simp at hx
        subst hx
        exact he
    cases hl : elimLoop (elimDfs f) cur (lookupD st1.safe cur).length st1 with
    | none => rw [hl] at h; cases h
    | some st2 =>
      rw [hl] at h
      obtain rfl : _ = st' := by simpa using h
      obtain ⟨hsafe2, hrem2⟩ := elimLoop_noRemove hcyc (elimDfs_spec f)
        (fun c' s' r' hinv' ha hb hc hd he hf hg hh =>
          ih c' s' r' hinv' ha hb hc hd he hf hg hh)
        cur (lookupD st1.safe cur).length st1 st2 (EInv_push hinv h1 h2)
        (by rw [hstack1]; simp) (le_refl _) hsafe
        (by
          intro v hv
          rw [hstack1] at hv
          rcases List.mem_append.mp hv with hv' | hv'
          · exact hstkR v hv'
          · simp at hv'
            subst hv'
            exact hreach)
        hchain1
        (by show (st.pathStack ++ [cur]).getLast? = some cur; simp)
        hl
      exact ⟨hsafe2, hrem2⟩

/-- C6: elimination is idempotent: running `removeCycles` on the dag
produced by a first run (same start node) removes no further edges. -/

theorem C6_idempotent (g : Graph) (s : String) :
    (removeCycles (removeCycles g s).safeGraph s).removedEdges = [] := by
  set d := (removeCycles g s).safeGraph with hd
  have hacyc : ¬ cycReach d s := (removeCycles_spec g s).2.2.2
  obtain ⟨st', helim⟩ := Option.isSome_iff_exists.mp (elimRun_isSome d s)
  have hres : (removeCycles d s).removedEdges = st'.removedEdges := by
    simp only [removeCycles, helim]
  rw [hres]
  by_cases hs : (lookupG d s).isSome
  · have hrun : elimDfs (fuelOf d s) s (elimInit d) = some st' := by
      rw [← helim]
      unfold elimRun
      rw [if_pos hs]
    have := elimDfs_noRemove hacyc (fuelOf d s) s (elimInit d) st'
      (elimInit_inv d) (by simp [elimInit]) (by simp [elimInit]) rfl
      (by simp [elimInit]) (by simp [elimInit]) Relation.ReflTransGen.refl
      (Or.inl (by simp [elimInit])) hrun
    exact this.2
  · have : elimRun d s = some (elimInit d) := by
      unfold elimRun
      rw [if_neg hs]
    rw [this] at helim
    have hst' : st' = elimInit d := by
      injection helim with h'
      exact h'.symm
    subst hst'
    rfl

/-- C8: neither operation mutates the caller's graph.  The detector's
traversal state carries the caller's mapping and ends with it unchanged;
the eliminator performs its deletions on the private `safeGraph` copy
while the caller-owned graph in its state is unchanged at the end of the
run. -/

theorem C8_no_mutation (g : Graph) (s : String) :
    (∀ r st', detectRun g s = some (r, st') → st'.graphData = g) ∧
    (∀ st', elimRun g s = some st' → st'.caller = g) := by
  constructor
  · intro r st' h
    exact (dfsD_spec (fuelOf g s) s (detInit g) r st' (detInit_inv g) h).2.1
  · intro st' h
    unfold elimRun at h
    split at h
    · exact (elimDfs_spec (fuelOf g s) s (elimInit g) st' (elimInit_inv g)
        (by simp [elimInit]) (by simp [elimInit]) h).2.1
    · obtain rfl : elimInit g = st' := by simpa using h
      rfl

/-- Witness for C8 at the repository's test graph. -/

theorem C8_no_mutation_witness :
    (∃ r st', detectRun GW1 "1" = some (r, st') ∧ st'.graphData = GW1) ∧
    (∃ st', elimRun GW1 "1" = some st' ∧ st'.caller = GW1) := by
  constructor
  · obtain ⟨⟨r, st'⟩, hp⟩ :=
      Option.isSome_iff_exists.mp (detectRun_isSome GW1 "1")
    exact ⟨r, st', hp, (C8_no_mutation GW1 "1").1 r st' hp⟩
  · obtain ⟨st', hp⟩ := Option.isSome_iff_exists.mp (elimRun_isSome GW1 "1")
    exact ⟨st', hp, (C8_no_mutation GW1 "1").2 st' hp⟩

/-- C10: both instrumented detectors emit the `START` record before
validating the start node, so a missing start node still yields a trace
with exactly that one record. -/

theorem C10_start_before_validation (g : Graph) (s : String)
    (hs : (lookupG g s).isSome = false) :
    (∃ r0 : StepRec, (runDetectionWithSteps g s).steps = some [r0] ∧
      r0.action = "START" ∧ r0.node = s) ∧
    (∃ r0 : StepRec, (runDetectionWithStepsSkip g s).steps = some [r0] ∧
      r0.action = "START" ∧ r0.node = s) := by
  constructor
  · refine ⟨startRec s, ?_, rfl, rfl⟩
    simp only [runDetectionWithSteps, hs, Bool.false_eq_true, if_false]
    rfl
  · refine ⟨startRec s, ?_, rfl, rfl⟩
    simp only [runDetectionWithStepsSkip, hs, Bool.false_eq_true, if_false]
    rfl

/-- Witness for C10 with the missing start node `"99"`. -/

theorem C10_start_before_validation_witness :
    (lookupG GW1 "99").isSome = false ∧
    ((∃ r0 : StepRec, (runDetectionWithSteps GW1 "99").steps = some [r0] ∧
      r0.action = "START" ∧ r0.node = "99") ∧
    (∃ r0 : StepRec, (runDetectionWithStepsSkip GW1 "99").steps = some [r0] ∧
      r0.action = "START" ∧ r0.node = "99")) :=
  ⟨by decide, C10_start_before_validation GW1 "99" (by decide)⟩

@[simp] theorem captureS_toDet (a n e z : String) (tn : Option String)
    (ic : Option Bool) (cn : Option String) (st : SSt) :
    (captureS a n e z tn ic cn st).toDet = st.toDet := rfl

@[simp] theorem captureS0_toDet (a n e z : String) (st : SSt) :
    (captureS0 a n e z st).toDet = st.toDet := rfl

@[simp] theorem captureS_recStack (a n e z : String) (tn : Option String)
    (ic : Option Bool) (cn : Option String) (st : SSt) :
    (captureS a n e z tn ic cn st).recursionStack = st.recursionStack := rfl

@[simp] theorem captureS0_recStack (a n e z : String) (st : SSt) :
    (captureS0 a n e z st).recursionStack = st.recursionStack := rfl

@[simp] theorem captureS_visited (a n e z : String) (tn : Option String)
    (ic : Option Bool) (cn : Option String) (st : SSt) :
    (captureS a n e z tn ic cn st).visited = st.visited := rfl

@[simp] theorem captureS0_visited (a n e z : String) (st : SSt) :
    (captureS0 a n e z st).visited = st.visited := rfl

@[simp] theorem captureS_graphData (a n e z : String) (tn : Option String)
    (ic : Option Bool) (cn : Option String) (st : SSt) :
    (captureS a n e z tn ic cn st).graphData = st.graphData := rfl

@[simp] theorem captureS0_graphData (a n e z : String) (st : SSt) :
    (captureS0 a n e z st).graphData = st.graphData := rfl

@[simp] theorem captureS_pathStack (a n e z : String) (tn : Option String)
    (ic : Option Bool) (cn : Option String) (st : SSt) :
    (captureS a n e z tn ic cn st).pathStack = st.pathStack := rfl

@[simp] theorem captureS0_pathStack (a n e z : String) (st : SSt) :
    (captureS0 a n e z st).pathStack = st.pathStack := rfl

@[simp] theorem SRes_toD_found (r : SRes) : r.toD.found = r.found := by
  cases r <;> rfl

/-- Discarding the log commutes with the neighbor loop. -/

theorem dfsSN_sim {rec : String → SSt → Option (SRes × SSt)}
    {recD : String → DetSt → Option (DRes × DetSt)}
    (hrec : ∀ n st, (rec n st).map projS = recD n st.toDet) (cur : String) :
    ∀ ns st, (dfsSN rec cur ns st).map projS = dfsDN recD ns st.toDet := by
  intro ns
  induction ns with
  | nil =>
    intro st
    simp [dfsSN, dfsDN]
    rfl
  | cons n rest ih =>
    intro st
    simp only [dfsSN, dfsDN]
    have h1 := hrec n (captureS "EXPLORE_NEIGHBOR" cur
      ("> traverse edge[" ++ cur ++ "]->[" ++ n ++ "]")
      ("遍歷邊 " ++ cur ++ " -> " ++ n) (some n) none none st)
    rw [captureS_toDet] at h1
    cases hr : rec n (captureS "EXPLORE_NEIGHBOR" cur
      ("> traverse edge[" ++ cur ++ "]->[" ++ n ++ "]")
      ("遍歷邊 " ++ cur ++ " -> " ++ n) (some n) none none st) with
    | none =>
      rw [hr] at h1
      rw [← h1]
      rfl
    | some p =>
      obtain ⟨r1, st1⟩ := p
      rw [hr] at h1
      rw [← h1]
      simp only [Option.map_some]
      show _ = (if (projS (r1, st1)).1.found then some (projS (r1, st1))
        else dfsDN recD rest (projS (r1, st1)).2)
      by_cases hf : r1.found
      · simp [projS, hf]
      · simp only [Bool.not_eq_true] at hf
        simp [projS, hf, ih st1]

/-- Discarding the log commutes with one fresh-node step. -/

theorem dfsSStep_sim {rec : String → SSt → Option (SRes × SSt)}
    {recD : String → DetSt → Option (DRes × DetSt)}
    (hrec : ∀ n st, (rec n st).map projS = recD n st.toDet)
    (cur : String) (st : SSt) :
    (dfsSStep rec cur st).map projS = dfsDStep recD cur st.toDet := by
  simp only [dfsSStep, dfsDStep]
  set st1c := captureS0 "ADD_TO_STACK" cur
    ("> stack.push(" ++ cur ++ ") => ["
      ++ String.intercalate ","
        (addS st.recursionStack cur) ++ "]")
    ("將 " ++ cur ++ " 加入堆疊")
    { st with recursionStack := addS st.recursionStack cur,
              pathStack := st.pathStack ++ [cur] } with hst1c
  have hsn' : Option.map projS (dfsSN rec cur (lookupD st1c.graphData cur) st1c) =
      dfsDN recD (lookupD st.toDet.graphData cur)
        { graphData := st.toDet.graphData, visited := st.toDet.visited,
          recursionStack := addS st.toDet.recursionStack cur,
          pathStack := st.toDet.pathStack ++ [cur] } :=
    dfsSN_sim hrec cur _ st1c
  rw [← hsn']
  cases hl : dfsSN rec cur (lookupD st1c.graphData cur) st1c with
  | none => rfl
  | some p =>
    obtain ⟨r1, st2⟩ := p
    cases r1 with
    | notFound => rfl
    | foundAt c e => rfl

/-- Discarding the log commutes with the instrumented `dfs`
(stop-at-first-cycle policy). -/

theorem dfsS_sim : ∀ fuel cur st,
    (dfsS fuel cur st).map projS = dfsD fuel cur st.toDet := by
  intro fuel
  induction fuel with
  | zero =>
    intro cur st
    by_cases h1 : cur ∈ st.recursionStack
    · rw [dfsD_eq_stack (show cur ∈ st.toDet.recursionStack from h1)]
      simp only [dfsS, captureS0_recStack, captureS_recStack]
      rw [if_pos h1]
      simp [projS, SRes.toD]
    · by_cases h2 : cur ∈ st.visited
      · rw [dfsD_eq_visited (show cur ∉ st.toDet.recursionStack from h1)
          (show cur ∈ st.toDet.visited from h2)]
        simp only [dfsS, captureS0_recStack, captureS_recStack,
          captureS0_visited, captureS_visited]
        rw [if_neg h1, if_pos h2]
        simp [projS, SRes.toD]
      · rw [dfsD_eq_zero (show cur ∉ st.toDet.recursionStack from h1)
          (show cur ∉ st.toDet.visited from h2)]
        simp only [dfsS, captureS0_recStack, captureS_recStack,
          captureS0_visited, captureS_visited]
        rw [if_neg h1, if_neg h2]
        rfl
  | succ f ih =>
    intro cur st
    by_cases h1 : cur ∈ st.recursionStack
    · rw [dfsD_eq_stack (show cur ∈ st.toDet.recursionStack from h1)]
      simp only [dfsS, captureS0_recStack, captureS_recStack]
      rw [if_pos h1]
      simp [projS, SRes.toD]
    · by_cases h2 : cur ∈ st.visited
      · rw [dfsD_eq_visited (show cur ∉ st.toDet.recursionStack from h1)
          (show cur ∈ st.toDet.visited from h2)]
        simp only [dfsS, captureS0_recStack, captureS_recStack,
          captureS0_visited, captureS_visited]
        rw [if_neg h1, if_pos h2]
        simp [projS, SRes.toD]
      · rw [dfsD_eq_succ (show cur ∉ st.toDet.recursionStack from h1)
          (show cur ∉ st.toDet.visited from h2)]
        simp only [dfsS, captureS0_recStack, captureS_recStack,
          captureS0_visited, captureS_visited]
        rw [if_neg h1, if_neg h2]
        exact dfsSStep_sim (fun n st' => ih n st') cur _

/-- Discarding the log commutes with the whole traversal. -/

theorem detectRunS_sim (g : Graph) (s : String) :
    (detectRunS g s).map projS = detectRun g s := by
  show (dfsS (fuelOf g s) s (sInit g s)).map projS = dfsD (fuelOf g s) s (detInit g)
  rw [dfsS_sim]
  rfl

/-- C3 (amended): discarding the trace, the stop-at-first-cycle
instrumented detector returns exactly the same `found`, `path`, `loopPath`
and `error` as the plain detector.  (The `cycleEdge` field is produced
only by the instrumented variant; see the counterexample.) -/

theorem C3_trace_transparent (g : Graph) (s : String) :
    (runDetectionWithSteps g s).found = (runDetection g s).found ∧
    (runDetectionWithSteps g s).path = (runDetection g s).path ∧
    (runDetectionWithSteps g s).loopPath = (runDetection g s).loopPath ∧
    (runDetectionWithSteps g s).error = (runDetection g s).error := by
  by_cases hs : (lookupG g s).isSome
  · cases hrs : detectRunS g s with
    | none =>
      have hr : detectRun g s = none := by
        rw [← detectRunS_sim, hrs]
        rfl
      refine ⟨?_, ?_, ?_, ?_⟩ <;>
        simp only [runDetectionWithSteps, runDetection, hs, if_true, hrs, hr]
    | some p =>
      obtain ⟨r, st'⟩ := p
      have hr : detectRun g s = some (r.toD, st'.toDet) := by
        rw [← detectRunS_sim, hrs]
        rfl
      cases r with
      | notFound =>
        refine ⟨?_, ?_, ?_, ?_⟩ <;>
          simp only [runDetectionWithSteps, runDetection, hs, if_true,
            hrs, hr] <;> rfl
      | foundAt c ce =>
        refine ⟨?_, ?_, ?_, ?_⟩ <;>
          simp only [runDetectionWithSteps, runDetection, hs, if_true,
            hrs, hr] <;> rfl
  · have hs' : (lookupG g s).isSome = false := by
      simpa using hs
    refine ⟨?_, ?_, ?_, ?_⟩ <;>
      simp only [runDetectionWithSteps, runDetection, hs',
        Bool.false_eq_true, if_false]

/-- C3 counterexample: the plain detector never reports a `cycleEdge`,
while the instrumented one does, so the two results do not agree on that
field. -/

theorem C3_cycleEdge_differs :
    (runDetectionWithSteps GSelf "1").cycleEdge ≠
      (runDetection GSelf "1").cycleEdge := by
  decide

@[simp] theorem captureK_graphData (a n e z : String) (tn : Option String)
    (ic : Option Bool) (cn : Option String) (se : Option GEdge) (st : KSt) :
    (captureK a n e z tn ic cn se st).graphData = st.graphData := rfl

@[simp] theorem captureK0_graphData (a n e z : String) (st : KSt) :
    (captureK0 a n e z st).graphData = st.graphData := rfl

@[simp] theorem captureK_recStack (a n e z : String) (tn : Option String)
    (ic : Option Bool) (cn : Option String) (se : Option GEdge) (st : KSt) :
    (captureK a n e z tn ic cn se st).recursionStack = st.recursionStack := rfl

@[simp] theorem captureK0_recStack (a n e z : String) (st : KSt) :
    (captureK0 a n e z st).recursionStack = st.recursionStack := rfl

@[simp] theorem captureK_visited (a n e z : String) (tn : Option String)
    (ic : Option Bool) (cn : Option String) (se : Option GEdge) (st : KSt) :
    (captureK a n e z tn ic cn se st).visited = st.visited := rfl

@[simp] theorem captureK0_visited (a n e z : String) (st : KSt) :
    (captureK0 a n e z st).visited = st.visited := rfl

@[simp] theorem captureK_pathStack (a n e z : String) (tn : Option String)
    (ic : Option Bool) (cn : Option String) (se : Option GEdge) (st : KSt) :
    (captureK a n e z tn ic cn se st).pathStack = st.pathStack := rfl

@[simp] theorem captureK0_pathStack (a n e z : String) (st : KSt) :
    (captureK0 a n e z st).pathStack = st.pathStack := rfl

@[simp] theorem captureK_skipped (a n e z : String) (tn : Option String)
    (ic : Option Bool) (cn : Option String) (se : Option GEdge) (st : KSt) :
    (captureK a n e z tn ic cn se st).skippedEdges = st.skippedEdges := rfl

@[simp] theorem captureK0_skipped (a n e z : String) (st : KSt) :
    (captureK0 a n e z st).skippedEdges = st.skippedEdges := rfl

theorem KConc_rfl (st : KSt) : KConc st st :=
  ⟨rfl, rfl, rfl, List.prefix_rfl, [], by simp, by simp⟩

theorem KConc_trans {st1 st2 st3 : KSt} (h1 : KConc st1 st2)
    (h2 : KConc st2 st3) : KConc st1 st3 := by
  obtain ⟨hg1, hs1, hp1, hv1, L1, hl1, hk1⟩ := h1
  obtain ⟨hg2, hs2, hp2, hv2, L2, hl2, hk2⟩ := h2
  refine ⟨hg2.trans hg1, hs2.trans hs1, hp2.trans hp1, hv1.trans hv2,
    L1 ++ L2, ?_, ?_⟩
  · rw [hl2, hl1, List.append_assoc]
  · rw [hk2, hk1, List.filterMap_append, List.append_assoc]

theorem KConc_capture (a n e z : String) (tn : Option String)
    (ic : Option Bool) (cn : Option String) (st : KSt) :
    KConc st (captureK a n e z tn ic cn none st) := by
  refine ⟨rfl, rfl, rfl, List.prefix_rfl,
    [{ action := a, node := n, explanation := e, explanationZh := z,
       visited := st.visited, recursionStack := st.recursionStack,
       pathStack := st.pathStack, targetNeighbor := tn, isCycle := ic,
       cycleNode := cn }], rfl, ?_⟩
  simp [List.filterMap]

theorem KConc_capture0 (a n e z : String) (st : KSt) :
    KConc st (captureK0 a n e z st) :=
  KConc_capture a n e z none none none st

/-- The skip-and-continue neighbor loop obeys the postcondition. -/

theorem dfsKN_conc {rec : String → KSt → Option (KRes × KSt)}
    (hrec : KSpec rec) (cur : String) :
    ∀ ns st r st', dfsKN rec cur ns st = some (r, st') → KConc st st' := by
  intro ns
  induction ns with
  | nil =>
    intro st r st' h
    simp only [dfsKN] at h
    obtain ⟨rfl, rfl⟩ : KRes.notFound = r ∧ st = st' := by simpa using h
    exact KConc_rfl st
  | cons n rest ih =>
    intro st r st' h
    simp only [dfsKN] at h
    set stE := captureK "EXPLORE_NEIGHBOR" cur
      ("> traverse edge[" ++ cur ++ "]->[" ++ n ++ "]")
      ("遍歷邊 " ++ cur ++ " -> " ++ n) (some n) none none none st with hstE
    cases hr : rec n stE with
    | none => rw [hr] at h; cases h
    | some p =>
      obtain ⟨r1, st1⟩ := p
      rw [hr] at h
      exact KConc_trans (KConc_trans
        (KConc_capture "EXPLORE_NEIGHBOR" cur _ _ (some n) none none st)
        (hrec n stE r1 st1 hr)) (ih st1 r st' h)

theorem KConc.toL {st st' : KSt} (h : KConc st st') : LConc st st' :=
  h.2.2.2.2

theorem LConc_rfl (st : KSt) : LConc st st := ⟨[], by simp, by simp⟩

theorem LConc_trans {st1 st2 st3 : KSt} (h1 : LConc st1 st2)
    (h2 : LConc st2 st3) : LConc st1 st3 := by
  obtain ⟨L1, hl1, hk1⟩ := h1
  obtain ⟨L2, hl2, hk2⟩ := h2
  refine ⟨L1 ++ L2, ?_, ?_⟩
  · rw [hl2, hl1, List.append_assoc]
  · rw [hk2, hk1, List.filterMap_append, List.append_assoc]

theorem LConc_capture (a n e z : String) (tn : Option String)
    (ic : Option Bool) (cn : Option String) (st : KSt) :
    LConc st (captureK a n e z tn ic cn none st) :=
  (KConc_capture a n e z tn ic cn st).toL

theorem LConc_capture0 (a n e z : String) (st : KSt) :
    LConc st (captureK0 a n e z st) :=
  (KConc_capture0 a n e z st).toL

/-- One fresh-node step of the skip-and-continue `dfs` obeys the
postcondition. -/

theorem dfsKStep_conc {rec : String → KSt → Option (KRes × KSt)}
    (hrec : KSpec rec) (cur : String) (st : KSt) (r : KRes) (st' : KSt)
    (hA : cur ∉ st.recursionStack)
    (h : dfsKStep rec cur st = some (r, st')) : KConc st st' := by
  simp only [dfsKStep] at h
  set st1c := captureK0 "ADD_TO_STACK" cur
    ("> stack.push(" ++ cur ++ ") => ["
      ++ String.intercalate "," (addS st.recursionStack cur) ++ "]")
    ("將 " ++ cur ++ " 加入堆疊")
    { st with recursionStack := addS st.recursionStack cur,
              pathStack := st.pathStack ++ [cur] } with hst1c
  cases hl : dfsKN rec cur (lookupD st1c.graphData cur) st1c with
  | none => rw [hl] at h; cases h
  | some p =>
    obtain ⟨r1, st2⟩ := p
    rw [hl] at h
    obtain ⟨rfl, rfl⟩ : KRes.notFound = r ∧ _ = st' := by simpa using h
    obtain ⟨hg2, hs2, hp2, hv2, hL2⟩ := dfsKN_conc hrec cur _ st1c r1 st2 hl
    have hstack1 : st1c.recursionStack = st.recursionStack ++ [cur] := by
      show addS st.recursionStack cur = _
      exact addS_of_not_mem hA
    refine ⟨?_, ?_, ?_, ?_, ?_⟩
    · show st2.graphData = st.graphData
      exact hg2
    · show (captureK0 "BACKTRACK" cur
        ("> stack.pop() -- backtrack from node[" ++ cur ++ "]")
        ("回溯，從堆疊移除 " ++ cur) st2).recursionStack.erase cur =
        st.recursionStack
      rw [captureK0_recStack, hs2, hstack1]
      exact erase_concat_self hA
    · show (captureK0 "BACKTRACK" cur
        ("> stack.pop() -- backtrack from node[" ++ cur ++ "]")
        ("回溯，從堆疊移除 " ++ cur) st2).pathStack.dropLast = st.pathStack
      rw [captureK0_pathStack, hp2]
      show (st.pathStack ++ [cur]).dropLast = st.pathStack
      simp
    · refine List.IsPrefix.trans ?_ (prefix_addS _ _)
      exact hv2
    · have l1 : LConc st st1c := by
        rw [hst1c]
        refine LConc_trans ?_ (LConc_capture0 _ _ _ _ _)
        exact ⟨[], by simp, by simp⟩
      have l2 : LConc st st2 := LConc_trans l1 hL2
      have l3 : LConc st (captureK0 "BACKTRACK" cur
          ("> stack.pop() -- backtrack from node[" ++ cur ++ "]")
          ("回溯，從堆疊移除 " ++ cur) st2) :=
        LConc_trans l2 (LConc_capture0 _ _ _ _ _)
      refine LConc_trans (LConc_trans l3 ?_) (LConc_capture0 _ _ _ _ _)
      exact ⟨[], by simp, by simp⟩

theorem KConc_skip (a n e z : String) (bE : GEdge) (st : KSt) :
    KConc st (captureK a n e z none none none (some bE)
      { st with skippedEdges := st.skippedEdges ++ [bE] }) := by
  refine ⟨rfl, rfl, rfl, List.prefix_rfl,
    [{ action := a, node := n, explanation := e, explanationZh := z,
       visited := st.visited, recursionStack := st.recursionStack,
       pathStack := st.pathStack, skippedEdge := some bE }], rfl, ?_⟩
  simp [List.filterMap]

/-- A skip-and-continue call on a node already on the recursion stack
obeys the postcondition. -/

theorem dfsK_stack_conc {fuel : Nat} {cur : String} {st : KSt} {r : KRes}
    {st' : KSt} (h1 : cur ∈ st.recursionStack)
    (h : dfsK fuel cur st = some (r, st')) : KConc st st' := by
  simp only [dfsK] at h
  split at h
  · rw [Option.some.injEq, Prod.mk.injEq] at h
    obtain ⟨rfl, rfl⟩ := h
    refine KConc_trans ?_ (KConc_skip _ _ _ _ _ _)
    refine KConc_trans ?_ (KConc_capture _ _ _ _ _ _ _ _)
    exact KConc_trans (KConc_capture0 _ _ _ _ _) (KConc_capture0 _ _ _ _ _)
  · rename_i hc
    exact absurd (show cur ∈ st.recursionStack from h1) (by simpa using hc)

/-- A skip-and-continue call on an already-verified node obeys the
postcondition. -/

theorem dfsK_visited_conc {fuel : Nat} {cur : String} {st : KSt} {r : KRes}
    {st' : KSt} (h1 : cur ∉ st.recursionStack) (h2 : cur ∈ st.visited)
    (h : dfsK fuel cur st = some (r, st')) : KConc st st' := by
  simp only [dfsK] at h
  split at h
  · rename_i hc
    exact absurd (by simpa using hc) h1
  · split at h
    · rw [Option.some.injEq, Prod.mk.injEq] at h
      obtain ⟨rfl, rfl⟩ := h
      refine KConc_trans ?_ (KConc_capture0 _ _ _ _ _)
      refine KConc_trans ?_ (KConc_capture0 _ _ _ _ _)
      exact KConc_trans (KConc_capture0 _ _ _ _ _) (KConc_capture0 _ _ _ _ _)
    · rename_i hc
      exact absurd (by simpa using h2) hc

/-- Every fuel-indexed skip-and-continue `dfs` obeys the postcondition:
whatever it did, it hands back the stacks it received, only grows
`visited`, and logs a step record for every skipped edge. -/

theorem dfsK_conc : ∀ fuel, KSpec (dfsK fuel) := by
  intro fuel
  induction fuel with
  | zero =>
    intro cur st r st' h
    by_cases h1 : cur ∈ st.recursionStack
    · exact dfsK_stack_conc h1 h
    · by_cases h2 : cur ∈ st.visited
      · exact dfsK_visited_conc h1 h2 h
      · exfalso
        simp only [dfsK] at h
        split at h
        · rename_i hc; exact h1 (by simpa using hc)
        · split at h
          · rename_i hc; exact h2 (by simpa using hc)
          · exact absurd h (by simp)
  | succ f ih =>
    intro cur st r st' h
    by_cases h1 : cur ∈ st.recursionStack
    · exact dfsK_stack_conc h1 h
    · by_cases h2 : cur ∈ st.visited
      · exact dfsK_visited_conc h1 h2 h
      · simp only [dfsK] at h
        split at h
        · rename_i hc; exact absurd (by simpa using hc) h1
        · split at h
          · rename_i hc; exact absurd (by simpa using hc) h2
          · refine KConc_trans ?_ (dfsKStep_conc ih cur _ r st' ?_ h)
            · refine KConc_trans ?_ (KConc_capture0 _ _ _ _ _)
              exact KConc_trans (KConc_capture0 _ _ _ _ _)
                (KConc_capture0 _ _ _ _ _)
            · simpa using h1

/-- Sufficient fuel for the skip-and-continue neighbor loop. -/

theorem dfsKN_suff {g : Graph} {s : String} {f : Nat}
    {rec : String → KSt → Option (KRes × KSt)} (hrecC : KSpec rec)
    (hrec : ∀ cur st, st.graphData = g →
      (∀ x ∈ st.recursionStack, x ∈ allNodesList g s) →
      cur ∈ allNodesList g s →
      (nodeFinset g s \ st.recursionStack.toFinset).card ≤ f →
      (rec cur st).isSome) (cur : String) :
    ∀ ns st, st.graphData = g →
      (∀ x ∈ st.recursionStack, x ∈ allNodesList g s) →
      (∀ n ∈ ns, n ∈ allNodesList g s) →
      (nodeFinset g s \ st.recursionStack.toFinset).card ≤ f →
      (dfsKN rec cur ns st).isSome := by
  intro ns
  induction ns with
  | nil => intro st _ _ _ _; simp [dfsKN]
  | cons n rest ih =>
    intro st hg hstack hns hcard
    simp only [dfsKN]
    set stE := captureK "EXPLORE_NEIGHBOR" cur
      ("> traverse edge[" ++ cur ++ "]->[" ++ n ++ "]")
      ("遍歷邊 " ++ cur ++ " -> " ++ n) (some n) none none none st with hstE
    have hgE : stE.graphData = g := by simp [hstE, hg]
    have hsE : stE.recursionStack = st.recursionStack := by simp [hstE]
    have hn := hrec n stE hgE (by rw [hsE]; exact hstack) (hns n (by simp))
      (by rw [hsE]; exact hcard)
    cases hr : rec n stE with
    | none => rw [hr] at hn; simp at hn
    | some p =>
      obtain ⟨r1, st1⟩ := p
      obtain ⟨hg1, hs1, _, _, _⟩ := hrecC n stE r1 st1 hr
      exact ih st1 (hg1.trans hgE) (by rw [hs1, hsE]; exact hstack)
        (fun m hm => hns m (by simp [hm]))
        (by rw [hs1, hsE]; exact hcard)

/-- Sufficient fuel for the fresh-node part of the skip-and-continue
`dfs`. -/

theorem dfsKStep_suff {g : Graph} {s : String} {f : Nat}
    (hrec : ∀ cur st, st.graphData = g →
      (∀ x ∈ st.recursionStack, x ∈ allNodesList g s) →
      cur ∈ allNodesList g s →
      (nodeFinset g s \ st.recursionStack.toFinset).card ≤ f →
      (dfsK f cur st).isSome)
    (cur : String) (st : KSt) (hg : st.graphData = g)
    (hstack : ∀ x ∈ st.recursionStack, x ∈ allNodesList g s)
    (hcur : cur ∈ allNodesList g s)
    (h1 : cur ∉ st.recursionStack)
    (hcard : (nodeFinset g s \ st.recursionStack.toFinset).card ≤ f + 1) :
    (dfsKStep (dfsK f) cur st).isSome := by
  simp only [dfsKStep]
  set st1c := captureK0 "ADD_TO_STACK" cur
    ("> stack.push(" ++ cur ++ ") => ["
      ++ String.intercalate "," (addS st.recursionStack cur) ++ "]")
    ("將 " ++ cur ++ " 加入堆疊")
    { st with recursionStack := addS st.recursionStack cur,
              pathStack := st.pathStack ++ [cur] } with hst1c
  have hstack1 : st1c.recursionStack = st.recursionStack ++ [cur] := by
    show addS st.recursionStack cur = _
    exact addS_of_not_mem h1
  have hg1 : st1c.graphData = st.graphData := by simp [hst1c]
  have hcard1 : (nodeFinset g s \ st1c.recursionStack.toFinset).card ≤ f := by
    rw [hstack1]
    have hfin1 : (st.recursionStack ++ [cur]).toFinset =
        insert cur st.recursionStack.toFinset := by
      ext x
      simp
      tauto
    rw [hfin1]
    have hsd : nodeFinset g s \ insert cur st.recursionStack.toFinset =
        (nodeFinset g s \ st.recursionStack.toFinset).erase cur := by
      ext x
      simp [Finset.mem_erase, Finset.mem_sdiff]
      tauto
    rw [hsd]
    have hmem : cur ∈ nodeFinset g s \ st.recursionStack.toFinset := by
      simp [nodeFinset, hcur, h1]
    rw [Finset.card_erase_of_mem hmem]
    omega
  have hloop := dfsKN_suff (g := g) (s := s) (dfsK_conc f) hrec cur
    (lookupD st1c.graphData cur) st1c (hg1.trans hg)
    (by
      intro x hx
      rw [hstack1] at hx
      rcases List.mem_append.mp hx with hx' | hx'
      · exact hstack x hx'
      · simp at hx'
        subst hx'
        exact hcur)
    (by
      intro n hn
      refine succ_mem_allNodesList (a := cur) ?_
      have he : lookupD st1c.graphData cur = lookupD g cur := by
        rw [hg1, hg]
      rw [he] at hn
      exact hn)
    hcard1
  cases hl : dfsKN (dfsK f) cur (lookupD st1c.graphData cur) st1c with
  | none => rw [hl] at hloop; simp at hloop
  | some p =>
    obtain ⟨r1, st2⟩ := p
    simp

/-- Sufficient fuel: with at least as much fuel as there are node ids not
yet on the recursion stack, the skip-and-continue `dfs` returns. -/

theorem dfsK_suff {g : Graph} {s : String} :
    ∀ fuel cur st, st.graphData = g →
      (∀ x ∈ st.recursionStack, x ∈ allNodesList g s) →
      cur ∈ allNodesList g s →
      (nodeFinset g s \ st.recursionStack.toFinset).card ≤ fuel →
      (dfsK fuel cur st).isSome := by
  intro fuel
  induction fuel with
  | zero =>
    intro cur st hg hstack hcur hcard
    simp only [dfsK]
    split
    · simp
    · split
      · simp
      · rename_i hc1 hc2
        exfalso
        have h1 : cur ∉ st.recursionStack := by simpa using hc1
        have hmem : cur ∈ nodeFinset g s \ st.recursionStack.toFinset := by
          simp [nodeFinset, hcur, h1]
        have : 0 < (nodeFinset g s \ st.recursionStack.toFinset).card :=
          Finset.card_pos.mpr ⟨cur, hmem⟩
        omega
  | succ f ih =>
    intro cur st hg hstack hcur hcard
    simp only [dfsK]
    split
    · simp
    · split
      · simp
      · rename_i hc1 hc2
        have h1 : cur ∉ st.recursionStack := by simpa using hc1
        refine dfsKStep_suff ih cur _ ?_ ?_ hcur ?_ ?_
        · simpa using hg
        · simpa using hstack
        · simpa using h1
        · simpa using hcard

/-- The skip-and-continue `dfs(startNode)` call always returns under the
chosen fuel. -/

theorem detectRunK_isSome (g : Graph) (s : String) :
    (detectRunK g s).isSome := by
  refine dfsK_suff (s := s) (fuelOf g s) s (kInit g s) rfl
    (by simp [kInit]) (start_mem_allNodesList g s) ?_
  have h1 : (kInit g s).recursionStack.toFinset = (∅ : Finset String) := by
    simp [kInit]
  rw [h1, Finset.sdiff_empty]
  exact (List.toFinset_card_le _).trans (le_of_eq rfl)

/-- C4: with a valid start node, the skip-and-continue detector always
completes its traversal; the returned `skippedEdges` are exactly the
back-edges recorded by `skippedEdge` fields of the emitted step records,
and whenever at least one back-edge was met the result is found-and-handled
and the final step record is a `COMPLETE` record counting the skipped
back-edges. -/

theorem C4_skip_and_continue (g : Graph) (s : String)
    (hs : (lookupG g s).isSome = true) :
    ∃ L : List StepRec,
      (runDetectionWithStepsSkip g s).steps = some L ∧
      (runDetectionWithStepsSkip g s).skippedEdges.getD [] =
        L.filterMap (fun q => q.skippedEdge) ∧
      (L.filterMap (fun q => q.skippedEdge) ≠ [] →
        (runDetectionWithStepsSkip g s).found = true ∧
        (runDetectionWithStepsSkip g s).handled = some true ∧
        ∃ c, L.getLast? = some c ∧ c.action = "COMPLETE" ∧
          c.explanation = "[✓] COMPLETE: traversal finished. "
            ++ toString (L.filterMap (fun q => q.skippedEdge)).length
            ++ " cycle(s) detected and skipped.") := by
  obtain ⟨p, hp⟩ := Option.isSome_iff_exists.mp (detectRunK_isSome g s)
  obtain ⟨r, st'⟩ := p
  obtain ⟨_, _, _, _, Δ, hlog, hskip⟩ :=
    dfsK_conc (fuelOf g s) s (kInit g s) r st' hp
  have hfm : st'.stepsLog.filterMap (fun q => q.skippedEdge) =
      st'.skippedEdges := by
    rw [hlog, hskip]
    have h2 : (kInit g s).stepsLog = [startRec s] := rfl
    rw [h2, List.filterMap_append]
    have h0 : [startRec s].filterMap (fun q => q.skippedEdge) = [] := rfl
    rw [h0]
    have h1 : (kInit g s).skippedEdges = [] := rfl
    rw [h1]
  have hLdef : ∀ (a n e z : String), (captureK0 a n e z st').stepsLog
      = st'.stepsLog ++
        [{ action := a, node := n, explanation := e, explanationZh := z,
           visited := st'.visited, recursionStack := st'.recursionStack,
           pathStack := st'.pathStack }] := fun a n e z => rfl
  simp only [runDetectionWithStepsSkip, hs, hp]
  by_cases hpos : 0 < st'.skippedEdges.length
  · rw [if_pos hpos]
    refine ⟨_, rfl, ?_, ?_⟩
    · rw [hLdef, List.filterMap_append, hfm]
      simp
    · intro hne
      refine ⟨rfl, rfl,
        { action := "COMPLETE", node := s,
          explanation := "[✓] COMPLETE: traversal finished. "
            ++ toString st'.skippedEdges.length
            ++ " cycle(s) detected and skipped.",
          explanationZh := "完成：遍歷結束。偵測到 "
            ++ toString st'.skippedEdges.length ++ " 個循環並成功跳過。",
          visited := st'.visited, recursionStack := st'.recursionStack,
          pathStack := st'.pathStack }, ?_, rfl, ?_⟩
      · rw [hLdef]
        simp
      · rw [hLdef, List.filterMap_append, hfm]
        simp
  · rw [if_neg hpos]
    have hnil : st'.skippedEdges = [] := by
      cases hsk : st'.skippedEdges with
      | nil => rfl
      | cons a l => exact absurd (by rw [hsk]; simp) hpos
    refine ⟨_, rfl, ?_, ?_⟩
    · rw [hLdef, List.filterMap_append, hfm, hnil]
      simp
    · intro hne
      exfalso
      apply hne
      rw [hLdef, List.filterMap_append, hfm, hnil]
      simp

theorem C4_skip_and_continue_witness :
    (lookupG GW1 "1").isSome = true ∧
    (∃ L : List StepRec,
      (runDetectionWithStepsSkip GW1 "1").steps = some L ∧
      (runDetectionWithStepsSkip GW1 "1").skippedEdges.getD [] =
        L.filterMap (fun q => q.skippedEdge) ∧
      (L.filterMap (fun q => q.skippedEdge) ≠ [] →
        (runDetectionWithStepsSkip GW1 "1").found = true ∧
        (runDetectionWithStepsSkip GW1 "1").handled = some true ∧
        ∃ c, L.getLast? = some c ∧ c.action = "COMPLETE" ∧
          c.explanation = "[✓] COMPLETE: traversal finished. "
            ++ toString (L.filterMap (fun q => q.skippedEdge)).length
            ++ " cycle(s) detected and skipped.")) :=
  ⟨by decide, C4_skip_and_continue GW1 "1" (by decide)⟩

theorem GoodTrace_nil : GoodTrace [] :=
  ⟨fun q hq => absurd hq (by simp), List.Pairwise.nil⟩

theorem SnapInv_capture {v rs p : List String} {log : List StepRec}
    (h : SnapInv v rs p log) (q : StepRec)
    (hq : q.visited = v ∧ q.recursionStack = rs ∧ q.pathStack = p) :
    SnapInv v rs p (log ++ [q]) := by
  obtain ⟨hv, hr, hpp⟩ := hq
  obtain ⟨h1, h2, ⟨hg, hpw⟩, hdom⟩ := h
  refine ⟨h1, h2, ⟨?_, ?_⟩, ?_⟩
  · intro q' hq'
    rcases List.mem_append.mp hq' with hh | hh
    · exact hg q' hh
    · simp only [List.mem_singleton] at hh
      subst hh
      exact ⟨by rw [hr, hpp]; exact h1, by rw [hv, hr]; exact h2⟩
  · rw [List.pairwise_append]
    refine ⟨hpw, by simp, ?_⟩
    intro a ha b hb
    simp only [List.mem_singleton] at hb
    subst hb
    rw [hv]
    exact fun x hx => hdom a ha x hx
  · intro q' hq' x hx
    rcases List.mem_append.mp hq' with hh | hh
    · exact hdom q' hh x hx
    · simp only [List.mem_singleton] at hh
      subst hh
      rw [hv] at hx
      exact hx

theorem SnapInv_push {v rs p : List String} {log : List StepRec}
    {cur : String} (h : SnapInv v rs p log)
    (h1 : cur ∉ rs) (h2 : cur ∉ v) :
    SnapInv v (addS rs cur) (p ++ [cur]) log := by
  obtain ⟨hi, hd, hg, hdom⟩ := h
  refine ⟨?_, ?_, hg, hdom⟩
  · intro x
    rw [addS_of_not_mem h1]
    simp only [List.mem_append, List.mem_singleton]
    rw [hi x]
  · intro x hx
    rw [addS_of_not_mem h1]
    simp only [List.mem_append, List.mem_singleton]
    rintro (hc | rfl)
    · exact hd x hx hc
    · exact h2 hx

theorem SnapInv_grow {v rs p : List String} {log : List StepRec}
    {cur : String} (h : SnapInv v rs p log) (hc : cur ∉ rs) :
    SnapInv (addS v cur) rs p log := by
  obtain ⟨hi, hd, hg, hdom⟩ := h
  refine ⟨hi, ?_, hg, ?_⟩
  · intro x hx
    rcases mem_addS.mp hx with hx' | rfl
    · exact hd x hx'
    · exact hc
  · intro q hq x hx
    exact mem_addS.mpr (Or.inl (hdom q hq x hx))

theorem SnapInv_pop {v rs p : List String} {log : List StepRec}
    {cur : String} (h : SnapInv v (rs ++ [cur]) (p ++ [cur]) log)
    (hiff : ∀ x, x ∈ rs ↔ x ∈ p) : SnapInv v rs p log := by
  obtain ⟨hi, hd, hg, hdom⟩ := h
  refine ⟨hiff, ?_, hg, hdom⟩
  intro x hx hxr
  exact hd x hx (by simp [hxr])

theorem KInv_captureK (a n e z : String) (tn : Option String)
    (ic : Option Bool) (cn : Option String) (se : Option GEdge)
    (st : KSt) (h : KInv st) : KInv (captureK a n e z tn ic cn se st) :=
  SnapInv_capture h _ ⟨rfl, rfl, rfl⟩

theorem KInv_captureK0 (a n e z : String) (st : KSt) (h : KInv st) :
    KInv (captureK0 a n e z st) :=
  KInv_captureK a n e z none none none none st h

theorem KInv_skip (a n e z : String) (bE : GEdge) (st : KSt)
    (h : KInv st) :
    KInv (captureK a n e z none none none (some bE)
      { st with skippedEdges := st.skippedEdges ++ [bE] }) := by
  have h' : KInv { st with skippedEdges := st.skippedEdges ++ [bE] } := h
  exact KInv_captureK a n e z none none none (some bE) _ h'

/-- The skip-and-continue neighbor loop preserves the state invariant. -/

theorem dfsKN_inv {rec : String → KSt → Option (KRes × KSt)}
    (hrecI : ∀ cur st r st', KInv st → rec cur st = some (r, st') →
      KInv st') (cur : String) :
    ∀ ns st r st', KInv st → dfsKN rec cur ns st = some (r, st') →
      KInv st' := by
  intro ns
  induction ns with
  | nil =>
    intro st r st' hinv h
    simp only [dfsKN] at h
    obtain ⟨rfl, rfl⟩ : KRes.notFound = r ∧ st = st' := by simpa using h
    exact hinv
  | cons n rest ih =>
    intro st r st' hinv h
    simp only [dfsKN] at h
    set stE := captureK "EXPLORE_NEIGHBOR" cur
      ("> traverse edge[" ++ cur ++ "]->[" ++ n ++ "]")
      ("遍歷邊 " ++ cur ++ " -> " ++ n) (some n) none none none st with hstE
    cases hr : rec n stE with
    | none => rw [hr] at h; cases h
    | some p =>
      obtain ⟨r1, st1⟩ := p
      rw [hr] at h
      have hE : KInv stE := by
        rw [hstE]
        exact KInv_captureK _ _ _ _ _ _ _ _ _ hinv
      exact ih st1 r st' (hrecI n stE r1 st1 hE hr) h

/-- The fresh-node part of the skip-and-continue `dfs` preserves the
state invariant. -/

theorem dfsKStep_inv {rec : String → KSt → Option (KRes × KSt)}
    (hrecC : KSpec rec)
    (hrecI : ∀ cur st r st', KInv st → rec cur st = some (r, st') →
      KInv st')
    (cur : String) (st : KSt) (r : KRes) (st' : KSt)
    (hA : cur ∉ st.recursionStack) (hV : cur ∉ st.visited)
    (hinv : KInv st)
    (h : dfsKStep rec cur st = some (r, st')) : KInv st' := by
  simp only [dfsKStep] at h
  set st1c := captureK0 "ADD_TO_STACK" cur
    ("> stack.push(" ++ cur ++ ") => ["
      ++ String.intercalate "," (addS st.recursionStack cur) ++ "]")
    ("將 " ++ cur ++ " 加入堆疊")
    { st with recursionStack := addS st.recursionStack cur,
              pathStack := st.pathStack ++ [cur] } with hst1c
  have hpushInv :
      KInv { st with recursionStack := addS st.recursionStack cur,
                     pathStack := st.pathStack ++ [cur] } :=
    SnapInv_push hinv hA hV
  have h1cInv : KInv st1c := by
    rw [hst1c]
    exact KInv_captureK0 _ _ _ _ _ hpushInv
  cases hl : dfsKN rec cur (lookupD st1c.graphData cur) st1c with
  | none => rw [hl] at h; cases h
  | some p =>
    obtain ⟨r1, st2⟩ := p
    rw [hl] at h
    obtain ⟨rfl, rfl⟩ : KRes.notFound = r ∧ _ = st' := by simpa using h
    obtain ⟨hg2, hs2, hp2, hv2, hL2⟩ := dfsKN_conc hrecC cur _ st1c r1 st2 hl
    have h2Inv : KInv st2 := dfsKN_inv hrecI cur _ st1c r1 st2 h1cInv hl
    have e1 : st2.recursionStack = st.recursionStack ++ [cur] := by
      rw [hs2]
      show addS st.recursionStack cur = _
      exact addS_of_not_mem hA
    have e2 : st2.pathStack = st.pathStack ++ [cur] := hp2
    refine KInv_captureK0 _ _ _ _ _ ?_
    have h2cInv : KInv (captureK0 "BACKTRACK" cur
        ("> stack.pop() -- backtrack from node[" ++ cur ++ "]")
        ("回溯，從堆疊移除 " ++ cur) st2) :=
      KInv_captureK0 _ _ _ _ _ h2Inv
    have h2c' : SnapInv st2.visited (st.recursionStack ++ [cur])
        (st.pathStack ++ [cur]) ((captureK0 "BACKTRACK" cur
          ("> stack.pop() -- backtrack from node[" ++ cur ++ "]")
          ("回溯，從堆疊移除 " ++ cur) st2).stepsLog) := by
      rw [← e1, ← e2]
      exact h2cInv
    have hpop := SnapInv_pop h2c' hinv.1
    have hgrow := SnapInv_grow hpop hA
    show SnapInv (addS st2.visited cur) (st2.recursionStack.erase cur)
      (st2.pathStack.dropLast) ((captureK0 "BACKTRACK" cur
        ("> stack.pop() -- backtrack from node[" ++ cur ++ "]")
        ("回溯，從堆疊移除 " ++ cur) st2).stepsLog)
    rw [e1, e2, erase_concat_self hA, List.dropLast_concat]
    exact hgrow

theorem dfsK_stack_inv {fuel : Nat} {cur : String} {st : KSt} {r : KRes}
    {st' : KSt} (h1 : cur ∈ st.recursionStack) (hinv : KInv st)
    (h : dfsK fuel cur st = some (r, st')) : KInv st' := by
  simp only [dfsK] at h
  split at h
  · rw [Option.some.injEq, Prod.mk.injEq] at h
    obtain ⟨rfl, rfl⟩ := h
    refine KInv_skip _ _ _ _ _ _ ?_
    refine KInv_captureK _ _ _ _ _ _ _ _ _ ?_
    exact KInv_captureK0 _ _ _ _ _ (KInv_captureK0 _ _ _ _ _ hinv)
  · rename_i hc
    exact absurd (show cur ∈ st.recursionStack from h1) (by simpa using hc)

theorem dfsK_visited_inv {fuel : Nat} {cur : String} {st : KSt} {r : KRes}
    {st' : KSt} (h1 : cur ∉ st.recursionStack) (h2 : cur ∈ st.visited)
    (hinv : KInv st) (h : dfsK fuel cur st = some (r, st')) : KInv st' := by
  simp only [dfsK] at h
  split at h
  · rename_i hc
    exact absurd (by simpa using hc) h1
  · split at h
    · rw [Option.some.injEq, Prod.mk.injEq] at h
      obtain ⟨rfl, rfl⟩ := h
      exact KInv_captureK0 _ _ _ _ _ (KInv_captureK0 _ _ _ _ _
        (KInv_captureK0 _ _ _ _ _ (KInv_captureK0 _ _ _ _ _ hinv)))
    · rename_i hc
      exact absurd (by simpa using h2) hc

/-- Every fuel-indexed skip-and-continue `dfs` preserves the state
invariant. -/

theorem dfsK_inv : ∀ fuel cur st r st', KInv st →
    dfsK fuel cur st = some (r, st') → KInv st' := by
  intro fuel
  induction fuel with
  | zero =>
    intro cur st r st' hinv h
    by_cases h1 : cur ∈ st.recursionStack
    · exact dfsK_stack_inv h1 hinv h
    · by_cases h2 : cur ∈ st.visited
      · exact dfsK_visited_inv h1 h2 hinv h
      · exfalso
        simp only [dfsK] at h
        split at h
        · rename_i hc; exact h1 (by simpa using hc)
        · split at h
          · rename_i hc; exact h2 (by simpa using hc)
          · exact absurd h (by simp)
  | succ f ih =>
    intro cur st r st' hinv h
    by_cases h1 : cur ∈ st.recursionStack
    · exact dfsK_stack_inv h1 hinv h
    · by_cases h2 : cur ∈ st.visited
      · exact dfsK_visited_inv h1 h2 hinv h
      · simp only [dfsK] at h
        split at h
        · rename_i hc; exact absurd (by simpa using hc) h1
        · split at h
          · rename_i hc; exact absurd (by simpa using hc) h2
          · refine dfsKStep_inv (dfsK_conc f)
              (fun c st0 r0 st0' hi h0 => ih c st0 r0 st0' hi h0)
              cur _ r st' ?_ ?_ ?_ h
            · simpa using h1
            · simpa using h2
            · exact KInv_captureK0 _ _ _ _ _ (KInv_captureK0 _ _ _ _ _
                (KInv_captureK0 _ _ _ _ _ hinv))

/-- The initial skip-and-continue state satisfies the invariant. -/

theorem kInit_inv (g : Graph) (s : String) : KInv (kInit g s) := by
  refine ⟨fun x => Iff.rfl, ?_, ⟨?_, ?_⟩, ?_⟩
  · intro x hx
    simp [kInit, captureK0, captureK] at hx
  · intro q hq
    have hq' : q ∈ [startRec s] := hq
    simp only [List.mem_singleton] at hq'
    subst hq'
    exact ⟨fun x => Iff.rfl, fun x hx => by simp [startRec] at hx⟩
  · have e : (kInit g s).stepsLog = [startRec s] := rfl
    rw [e]
    simp
  · intro q hq x hx
    have hq' : q ∈ [startRec s] := hq
    simp only [List.mem_singleton] at hq'
    subst hq'
    simp [startRec] at hx

theorem exists_append_snoc {α : Type} {A B : List α}
    (h : ∃ L1, B = A ++ L1) (C : List α) : ∃ L, B ++ C = A ++ L := by
  obtain ⟨L1, h1⟩ := h
  exact ⟨L1 ++ C, by rw [h1, List.append_assoc]⟩

theorem exists_append_left {α : Type} {A B C : List α}
    (h : ∃ L, C = (A ++ B) ++ L) : ∃ L, C = A ++ L := by
  obtain ⟨L, hL⟩ := h
  exact ⟨B ++ L, by rw [hL, List.append_assoc]⟩

theorem SConc_rfl (r : SRes) (st : SSt) : SConc st r st :=
  ⟨rfl, List.prefix_rfl, ⟨[], by simp⟩, fun _ => ⟨rfl, rfl⟩⟩

theorem SConc_trans {st st1 st' : SSt} {r1 r : SRes}
    (h1 : SConc st r1 st1) (h2 : SConc st1 r st')
    (hr : r.found = false → r1.found = false) : SConc st r st' := by
  obtain ⟨g1, v1, ⟨L1, l1⟩, s1⟩ := h1
  obtain ⟨g2, v2, ⟨L2, l2⟩, s2⟩ := h2
  refine ⟨g2.trans g1, v1.trans v2,
    ⟨L1 ++ L2, by rw [l2, l1, List.append_assoc]⟩, ?_⟩
  intro hf
  obtain ⟨a2, b2⟩ := s2 hf
  obtain ⟨a1, b1⟩ := s1 (hr hf)
  exact ⟨a2.trans a1, b2.trans b1⟩

theorem SConc_capture (r : SRes) (a n e z : String) (tn : Option String)
    (ic : Option Bool) (cn : Option String) (st : SSt) :
    SConc st r (captureS a n e z tn ic cn st) :=
  ⟨rfl, List.prefix_rfl, ⟨_, rfl⟩, fun _ => ⟨rfl, rfl⟩⟩

theorem SConc_capture0 (r : SRes) (a n e z : String) (st : SSt) :
    SConc st r (captureS0 a n e z st) :=
  SConc_capture r a n e z none none none st

/-- Composition across a state whose stacks may differ, valid when the
result reports a cycle (the restoration clause is vacuous). -/

theorem SConc_found {st st1 st' : SSt} {r : SRes} (hf : r.found = true)
    (hg : st1.graphData = st.graphData)
    (hv : st.visited <+: st1.visited)
    (hl : ∃ L, st1.stepsLog = st.stepsLog ++ L)
    (h2 : SConc st1 r st') : SConc st r st' := by
  obtain ⟨g2, v2, ⟨L2, l2⟩, _⟩ := h2
  obtain ⟨L1, l1⟩ := hl
  refine ⟨g2.trans hg, hv.trans v2,
    ⟨L1 ++ L2, by rw [l2, l1, List.append_assoc]⟩, ?_⟩
  intro hff
  rw [hff] at hf
  exact Bool.noConfusion hf

/-- The stop-at-first-cycle neighbor loop obeys the postcondition. -/

theorem dfsSN_sc {rec : String → SSt → Option (SRes × SSt)}
    (hrecC : ∀ cur st r st', rec cur st = some (r, st') → SConc st r st')
    (cur : String) :
    ∀ ns st r st', dfsSN rec cur ns st = some (r, st') →
      SConc st r st' := by
  intro ns
  induction ns with
  | nil =>
    intro st r st' h
    simp only [dfsSN] at h
    obtain ⟨rfl, rfl⟩ : SRes.notFound = r ∧ st = st' := by simpa using h
    exact SConc_rfl _ st
  | cons n rest ih =>
    intro st r st' h
    simp only [dfsSN] at h
    set stE := captureS "EXPLORE_NEIGHBOR" cur
      ("> traverse edge[" ++ cur ++ "]->[" ++ n ++ "]")
      ("遍歷邊 " ++ cur ++ " -> " ++ n) (some n) none none st with hstE
    cases hr : rec n stE with
    | none => rw [hr] at h; cases h
    | some p =>
      obtain ⟨r1, st1⟩ := p
      simp only [hr] at h
      by_cases hf1 : r1.found
      · rw [if_pos hf1] at h
        obtain ⟨rfl, rfl⟩ : r1 = r ∧ st1 = st' := by simpa using h
        exact SConc_trans (SConc_capture _ _ _ _ _ _ _ _ _)
          (hrecC n stE _ st1 hr) (fun hf => hf)
      · rw [if_neg hf1] at h
        have hff : r1.found = false := by
          cases hq : r1.found
          · rfl
          · exact absurd hq hf1
        exact SConc_trans (SConc_trans (SConc_capture r1 _ _ _ _ _ _ _ _)
          (hrecC n stE r1 st1 hr) (fun hf => hf)) (ih st1 r st' h)
          (fun _ => hff)

/-- The fresh-node part of the stop-at-first-cycle `dfs` obeys the
postcondition. -/

theorem dfsSStep_sc {rec : String → SSt → Option (SRes × SSt)}
    (hrecC : ∀ cur st r st', rec cur st = some (r, st') → SConc st r st')
    (cur : String) (st : SSt) (r : SRes) (st' : SSt)
    (hA : cur ∉ st.recursionStack)
    (h : dfsSStep rec cur st = some (r, st')) : SConc st r st' := by
  simp only [dfsSStep] at h
  set st1c := captureS0 "ADD_TO_STACK" cur
    ("> stack.push(" ++ cur ++ ") => ["
      ++ String.intercalate "," (addS st.recursionStack cur) ++ "]")
    ("將 " ++ cur ++ " 加入堆疊")
    { st with recursionStack := addS st.recursionStack cur,
              pathStack := st.pathStack ++ [cur] } with hst1c
  cases hl : dfsSN rec cur (lookupD st1c.graphData cur) st1c with
  | none => rw [hl] at h; cases h
  | some p =>
    obtain ⟨r1, st2⟩ := p
    simp only [hl] at h
    by_cases hf1 : r1.found
    · rw [if_pos hf1] at h
      obtain ⟨rfl, rfl⟩ : r1 = r ∧ st2 = st' := by simpa using h
      exact @SConc_found st st1c st2 r1 hf1 rfl List.prefix_rfl
        (by rw [hst1c]; exact ⟨_, rfl⟩)
        (dfsSN_sc hrecC cur _ st1c r1 st2 hl)
    · rw [if_neg hf1] at h
      have hff : r1.found = false := by
        cases hq : r1.found
        · rfl
        · exact absurd hq hf1
      obtain ⟨hg2, hv2, hlog2, hres⟩ := dfsSN_sc hrecC cur _ st1c r1 st2 hl
      obtain ⟨hrs2, hps2⟩ := hres hff
      have e1 : st2.recursionStack = st.recursionStack ++ [cur] := by
        rw [hrs2]
        show addS st.recursionStack cur = _
        exact addS_of_not_mem hA
      have e2 : st2.pathStack = st.pathStack ++ [cur] := hps2
      obtain ⟨rfl, rfl⟩ : SRes.notFound = r ∧ _ = st' := by simpa using h
      have hbase : ∃ L, st2.stepsLog = st.stepsLog ++ L :=
        exists_append_left hlog2
      refine ⟨?_, ?_, ?_, ?_⟩
      · show st2.graphData = st.graphData
        exact hg2
      · show st.visited <+: addS st2.visited cur
        exact List.IsPrefix.trans hv2 (prefix_addS _ _)
      · exact exists_append_snoc (exists_append_snoc hbase _) _
      · intro _
        constructor
        · show st2.recursionStack.erase cur = st.recursionStack
          rw [e1]
          exact erase_concat_self hA
        · show st2.pathStack.dropLast = st.pathStack
          rw [e2]
          exact List.dropLast_concat

theorem dfsS_stack_sc {fuel : Nat} {cur : String} {st : SSt} {r : SRes}
    {st' : SSt} (h1 : cur ∈ st.recursionStack)
    (h : dfsS fuel cur st = some (r, st')) : SConc st r st' := by
  simp only [dfsS] at h
  split at h
  · rw [Option.some.injEq, Prod.mk.injEq] at h
    obtain ⟨rfl, rfl⟩ := h
    refine ⟨by simp, by simp, ?_, ?_⟩
    · exact exists_append_snoc (exists_append_snoc
        (exists_append_snoc ⟨[], by simp⟩ _) _) _
    · intro hf
      simp [SRes.found] at hf
  · rename_i hc
    exact absurd (show cur ∈ st.recursionStack from h1) (by simpa using hc)

theorem dfsS_visited_sc {fuel : Nat} {cur : String} {st : SSt} {r : SRes}
    {st' : SSt} (h1 : cur ∉ st.recursionStack) (h2 : cur ∈ st.visited)
    (h : dfsS fuel cur st = some (r, st')) : SConc st r st' := by
  simp only [dfsS] at h
  split at h
  · rename_i hc
    exact absurd (by simpa using hc) h1
  · split at h
    · rw [Option.some.injEq, Prod.mk.injEq] at h
      obtain ⟨rfl, rfl⟩ := h
      refine ⟨by simp, by simp, ?_, ?_⟩
      · exact exists_append_snoc (exists_append_snoc (exists_append_snoc
          (exists_append_snoc ⟨[], by simp⟩ _) _) _) _
      · intro _
        constructor <;> simp
    · rename_i hc
      exact absurd (by simpa using h2) hc

/-- Every fuel-indexed stop-at-first-cycle `dfs` obeys the
postcondition. -/

theorem dfsS_sc : ∀ fuel cur st r st', dfsS fuel cur st = some (r, st') →
    SConc st r st' := by
  intro fuel
  induction fuel with
  | zero =>
    intro cur st r st' h
    by_cases h1 : cur ∈ st.recursionStack
    · exact dfsS_stack_sc h1 h
    · by_cases h2 : cur ∈ st.visited
      · exact dfsS_visited_sc h1 h2 h
      · exfalso
        simp only [dfsS] at h
        split at h
        · rename_i hc; exact h1 (by simpa using hc)
        · split at h
          · rename_i hc; exact h2 (by simpa using hc)
          · exact absurd h (by simp)
  | succ f ih =>
    intro cur st r st' h
    by_cases h1 : cur ∈ st.recursionStack
    · exact dfsS_stack_sc h1 h
    · by_cases h2 : cur ∈ st.visited
      · exact dfsS_visited_sc h1 h2 h
      · simp only [dfsS] at h
        split at h
        · rename_i hc; exact absurd (by simpa using hc) h1
        · split at h
          · rename_i hc; exact absurd (by simpa using hc) h2
          · refine SConc_trans ?_
              (dfsSStep_sc (fun c st0 r0 st0' h0 => ih c st0 r0 st0' h0)
                cur _ r st' ?_ h) (fun hf => hf)
            · refine SConc_trans ?_ (SConc_capture0 _ _ _ _ _ _)
                (fun hf => hf)
              exact SConc_trans (SConc_capture0 _ _ _ _ _ _)
                (SConc_capture0 _ _ _ _ _ _) (fun hf => hf)
            · simpa using h1

theorem SInv_captureS (a n e z : String) (tn : Option String)
    (ic : Option Bool) (cn : Option String) (st : SSt) (h : SInv st) :
    SInv (captureS a n e z tn ic cn st) :=
  SnapInv_capture h _ ⟨rfl, rfl, rfl⟩

theorem SInv_captureS0 (a n e z : String) (st : SSt) (h : SInv st) :
    SInv (captureS0 a n e z st) :=
  SInv_captureS a n e z none none none st h

/-- The stop-at-first-cycle neighbor loop preserves the state
invariant. -/

theorem dfsSN_inv {rec : String → SSt → Option (SRes × SSt)}
    (hrecI : ∀ cur st r st', SInv st → rec cur st = some (r, st') →
      SInv st') (cur : String) :
    ∀ ns st r st', SInv st → dfsSN rec cur ns st = some (r, st') →
      SInv st' := by
  intro ns
  induction ns with
  | nil =>
    intro st r st' hinv h
    simp only [dfsSN] at h
    obtain ⟨rfl, rfl⟩ : SRes.notFound = r ∧ st = st' := by simpa using h
    exact hinv
  | cons n rest ih =>
    intro st r st' hinv h
    simp only [dfsSN] at h
    set stE := captureS "EXPLORE_NEIGHBOR" cur
      ("> traverse edge[" ++ cur ++ "]->[" ++ n ++ "]")
      ("遍歷邊 " ++ cur ++ " -> " ++ n) (some n) none none st with hstE
    cases hr : rec n stE with
    | none => rw [hr] at h; cases h
    | some p =>
      obtain ⟨r1, st1⟩ := p
      simp only [hr] at h
      have hE : SInv stE := by
        rw [hstE]
        exact SInv_captureS _ _ _ _ _ _ _ _ hinv
      have hI1 := hrecI n stE r1 st1 hE hr
      by_cases hf1 : r1.found
      · rw [if_pos hf1] at h
        obtain ⟨rfl, rfl⟩ : r1 = r ∧ st1 = st' := by simpa using h
        exact hI1
      · rw [if_neg hf1] at h
        exact ih st1 r st' hI1 h

/-- The fresh-node part of the stop-at-first-cycle `dfs` preserves the
state invariant. -/

theorem dfsSStep_inv {rec : String → SSt → Option (SRes × SSt)}
    (hrecC : ∀ cur st r st', rec cur st = some (r, st') → SConc st r st')
    (hrecI : ∀ cur st r st', SInv st → rec cur st = some (r, st') →
      SInv st')
    (cur : String) (st : SSt) (r : SRes) (st' : SSt)
    (hA : cur ∉ st.recursionStack) (hV : cur ∉ st.visited)
    (hinv : SInv st)
    (h : dfsSStep rec cur st = some (r, st')) : SInv st' := by
  simp only [dfsSStep] at h
  set st1c := captureS0 "ADD_TO_STACK" cur
    ("> stack.push(" ++ cur ++ ") => ["
      ++ String.intercalate "," (addS st.recursionStack cur) ++ "]")
    ("將 " ++ cur ++ " 加入堆疊")
    { st with recursionStack := addS st.recursionStack cur,
              pathStack := st.pathStack ++ [cur] } with hst1c
  have hpushInv :
      SInv { st with recursionStack := addS st.recursionStack cur,
                     pathStack := st.pathStack ++ [cur] } :=
    SnapInv_push hinv hA hV
  have h1cInv : SInv st1c := by
    rw [hst1c]
    exact SInv_captureS0 _ _ _ _ _ hpushInv
  cases hl : dfsSN rec cur (lookupD st1c.graphData cur) st1c with
  | none => rw [hl] at h; cases h
  | some p =>
    obtain ⟨r1, st2⟩ := p
    simp only [hl] at h
    have h2Inv : SInv st2 := dfsSN_inv hrecI cur _ st1c r1 st2 h1cInv hl
    by_cases hf1 : r1.found
    · rw [if_pos hf1] at h
      obtain ⟨rfl, rfl⟩ : r1 = r ∧ st2 = st' := by simpa using h
      exact h2Inv
    · rw [if_neg hf1] at h
      have hff : r1.found = false := by
        cases hq : r1.found
        · rfl
        · exact absurd hq hf1
      obtain ⟨hg2, hv2, hlog2, hres⟩ := dfsSN_sc hrecC cur _ st1c r1 st2 hl
      obtain ⟨hrs2, hps2⟩ := hres hff
      have e1 : st2.recursionStack = st.recursionStack ++ [cur] := by
        rw [hrs2]
        show addS st.recursionStack cur = _
        exact addS_of_not_mem hA
      have e2 : st2.pathStack = st.pathStack ++ [cur] := hps2
      obtain ⟨rfl, rfl⟩ : SRes.notFound = r ∧ _ = st' := by simpa using h
      refine SInv_captureS0 _ _ _ _ _ ?_
      have h2cInv : SInv (captureS0 "BACKTRACK" cur
          ("> stack.pop() -- backtrack from node[" ++ cur ++ "]")
          ("回溯，從堆疊移除 " ++ cur) st2) :=
        SInv_captureS0 _ _ _ _ _ h2Inv
      have h2c' : SnapInv st2.visited (st.recursionStack ++ [cur])
          (st.pathStack ++ [cur]) ((captureS0 "BACKTRACK" cur
            ("> stack.pop() -- backtrack from node[" ++ cur ++ "]")
            ("回溯，從堆疊移除 " ++ cur) st2).stepsLog) := by
        rw [← e1, ← e2]
        exact h2cInv
      have hgrow := SnapInv_grow (SnapInv_pop h2c' hinv.1) hA
      show SnapInv (addS st2.visited cur) (st2.recursionStack.erase cur)
        (st2.pathStack.dropLast) ((captureS0 "BACKTRACK" cur
          ("> stack.pop() -- backtrack from node[" ++ cur ++ "]")
          ("回溯，從堆疊移除 " ++ cur) st2).stepsLog)
      rw [e1, e2, erase_concat_self hA, List.dropLast_concat]
      exact hgrow

theorem dfsS_stack_inv {fuel : Nat} {cur : String} {st : SSt} {r : SRes}
    {st' : SSt} (h1 : cur ∈ st.recursionStack) (hinv : SInv st)
    (h : dfsS fuel cur st = some (r, st')) : SInv st' := by
  simp only [dfsS] at h
  split at h
  · rw [Option.some.injEq, Prod.mk.injEq] at h
    obtain ⟨rfl, rfl⟩ := h
    refine SInv_captureS _ _ _ _ _ _ _ _ ?_
    exact SInv_captureS0 _ _ _ _ _ (SInv_captureS0 _ _ _ _ _ hinv)
  · rename_i hc
    exact absurd (show cur ∈ st.recursionStack from h1) (by simpa using hc)

theorem dfsS_visited_inv {fuel : Nat} {cur : String} {st : SSt} {r : SRes}
    {st' : SSt} (h1 : cur ∉ st.recursionStack) (h2 : cur ∈ st.visited)
    (hinv : SInv st) (h : dfsS fuel cur st = some (r, st')) : SInv st' := by
  simp only [dfsS] at h
  split at h
  · rename_i hc
    exact absurd (by simpa using hc) h1
  · split at h
    · rw [Option.some.injEq, Prod.mk.injEq] at h
      obtain ⟨rfl, rfl⟩ := h
      exact SInv_captureS0 _ _ _ _ _ (SInv_captureS0 _ _ _ _ _
        (SInv_captureS0 _ _ _ _ _ (SInv_captureS0 _ _ _ _ _ hinv)))
    · rename_i hc
      exact absurd (by simpa using h2) hc

/-- Every fuel-indexed stop-at-first-cycle `dfs` preserves the state
invariant. -/

theorem dfsS_inv : ∀ fuel cur st r st', SInv st →
    dfsS fuel cur st = some (r, st') → SInv st' := by
  intro fuel
  induction fuel with
  | zero =>
    intro cur st r st' hinv h
    by_cases h1 : cur ∈ st.recursionStack
    · exact dfsS_stack_inv h1 hinv h
    · by_cases h2 : cur ∈ st.visited
      · exact dfsS_visited_inv h1 h2 hinv h
      · exfalso
        simp only [dfsS] at h
        split at h
        · rename_i hc; exact h1 (by simpa using hc)
        · split at h
          · rename_i hc; exact h2 (by simpa using hc)
          · exact absurd h (by simp)
  | succ f ih =>
    intro cur st r st' hinv h
    by_cases h1 : cur ∈ st.recursionStack
    · exact dfsS_stack_inv h1 hinv h
    · by_cases h2 : cur ∈ st.visited
      · exact dfsS_visited_inv h1 h2 hinv h
      · simp only [dfsS] at h
        split at h
        · rename_i hc; exact absurd (by simpa using hc) h1
        · split at h
          · rename_i hc; exact absurd (by simpa using hc) h2
          · refine dfsSStep_inv (dfsS_sc f)
              (fun c st0 r0 st0' hi h0 => ih c st0 r0 st0' hi h0)
              cur _ r st' ?_ ?_ ?_ h
            · simpa using h1
            · simpa using h2
            · exact SInv_captureS0 _ _ _ _ _ (SInv_captureS0 _ _ _ _ _
                (SInv_captureS0 _ _ _ _ _ hinv))

/-- The initial stop-at-first-cycle state satisfies the invariant. -/

theorem sInit_inv (g : Graph) (s : String) : SInv (sInit g s) := by
  refine ⟨fun x => Iff.rfl, ?_, ⟨?_, ?_⟩, ?_⟩
  · intro x hx
    simp [sInit, captureS0, captureS] at hx
  · intro q hq
    have hq' : q ∈ [startRec s] := hq
    simp only [List.mem_singleton] at hq'
    subst hq'
    exact ⟨fun x => Iff.rfl, fun x hx => by simp [startRec] at hx⟩
  · have e : (sInit g s).stepsLog = [startRec s] := rfl
    rw [e]
    simp
  · intro q hq x hx
    have hq' : q ∈ [startRec s] := hq
    simp only [List.mem_singleton] at hq'
    subst hq'
    simp [startRec] at hx

/-- C9: both instrumented detectors maintain the traversal invariants at
every recorded instant: in every emitted trace each step record's
recursion-stack and path-stack snapshots hold the same node set, its
visited snapshot is disjoint from its recursion-stack snapshot, and the
visited snapshots grow monotonically along the trace. -/

theorem C9_trace_invariants (g : Graph) (s : String) :
    GoodTrace ((runDetectionWithSteps g s).steps.getD []) ∧
    GoodTrace ((runDetectionWithStepsSkip g s).steps.getD []) := by
  constructor
  · by_cases hs : (lookupG g s).isSome = true
    · simp only [runDetectionWithSteps, hs, if_true]
      cases hd : detectRunS g s with
      | none => exact GoodTrace_nil
      | some p =>
        obtain ⟨r, st'⟩ := p
        have hI : SInv st' :=
          dfsS_inv (fuelOf g s) s (sInit g s) r st' (sInit_inv g s) hd
        cases r with
        | foundAt c ce => exact hI.2.2.1
        | notFound => exact (SInv_captureS0 _ _ _ _ _ hI).2.2.1
    · have hs' : (lookupG g s).isSome = false := by
        cases hq : (lookupG g s).isSome
        · rfl
        · exact absurd hq hs
      simp only [runDetectionWithSteps, hs']
      exact (sInit_inv g s).2.2.1
  · by_cases hs : (lookupG g s).isSome = true
    · obtain ⟨p, hp⟩ := Option.isSome_iff_exists.mp (detectRunK_isSome g s)
      obtain ⟨r, st'⟩ := p
      have hI : KInv st' :=
        dfsK_inv (fuelOf g s) s (kInit g s) r st' (kInit_inv g s) hp
      simp only [runDetectionWithStepsSkip, hs, hp]
      by_cases hpos : 0 < st'.skippedEdges.length
      · rw [if_pos hpos]
        exact (KInv_captureK0 _ _ _ _ _ hI).2.2.1
      · rw [if_neg hpos]
        exact (KInv_captureK0 _ _ _ _ _ hI).2.2.1
    · have hs' : (lookupG g s).isSome = false := by
        cases hq : (lookupG g s).isSome
        · rfl
        · exact absurd hq hs
      simp only [runDetectionWithStepsSkip, hs']
      exact (kInit_inv g s).2.2.1

end Patlytics
